import Mathlib

/-!
Shallow embedding of the ants-ai-challenge influence bot (`overlord_bot.py`)
and proofs about its influence-propagation engine, combat overlay and order
resolver.

Conventions of the embedding:
* grid coordinates are pairs of integers, wrapped with `%` (Python's `%` on a
  positive modulus agrees with `Int.emod`);
* 2D arrays (the tile map, the score map, the visibility map) are modelled as
  functions from coordinates, updated pointwise; every read in the source goes
  through `wrap_loc` or an in-range index, so the function model is faithful;
* Python floats are modelled as rationals;
* Python sets are modelled as duplicate-free lists built with `setAdd`
  (only membership is ever consumed);
* the two unbounded `while` loops (`build_influence`'s expansion and
  `issue_orders`) take an explicit fuel argument.
-/

/-- A grid coordinate `(row, col)`. -/
abbrev Loc := Int × Int

/-- Tile constant `ANTS` from the source header. -/
def ANTS : Int := 0

/-- Tile constant `DEAD`. -/
def DEAD : Int := -1

/-- Tile constant `LAND`. -/
def LAND : Int := -2

/-- Tile constant `FOOD`. -/
def FOOD : Int := -3

/-- Tile constant `WATER`. -/
def WATER : Int := -4

/-- Custom tile marker `MY_HILL`. -/
def MY_HILL : Int := 10

/-- Custom tile marker `ALLY_ANT`. -/
def ALLY_ANT : Int := 20

/-- Custom tile marker `ENEMY_HILL`. -/
def ENEMY_HILL : Int := 30

/-- Custom tile marker `ENEMY_ANT`. -/
def ENEMY_ANT : Int := 40

/-- Custom tile marker `WAVE`. -/
def WAVE : Int := 50

/-- Custom tile marker `NOT_VISIBLE`. -/
def NOT_VISIBLE : Int := 60

/-- The `influence_values` dictionary: how strongly each item influences. -/
def influence_values (v : Int) : Option ℚ :=
  if v = FOOD then some 20
  else if v = ENEMY_HILL then some 50
  else if v = WAVE then some 5
  else if v = NOT_VISIBLE then some (1/10)
  else none

/-- The `number_of_influences` dictionary: how many ants each item can
influence. -/
def number_of_influences (v : Int) : Option Nat :=
  if v = FOOD then some 1
  else if v = WAVE then some 2
  else if v = NOT_VISIBLE then some 1
  else if v = MY_HILL then some 4
  else none

/-- `stop_propagation = [WATER]`. -/
def stop_propagation : List Int := [WATER]

/-- `blocked = [FOOD, WATER]`. -/
def blocked : List Int := [FOOD, WATER]

/-- `wrap_loc`: wrap a location around the map. -/
def wrap_loc (nrows ncols : Int) (loc : Loc) : Loc :=
  (loc.1 % nrows, loc.2 % ncols)

/-- The neighbor offsets `[(0, 1), (0, -1), (1, 0), (-1, 0)]` used by the
breadth-first expansion in `build_influence`. -/
def bfs_directions : List Loc := [(0, 1), (0, -1), (1, 0), (-1, 0)]

/-- Python `range(a, b + 1)` as a list of integers. -/
def intRange (a b : Int) : List Int :=
  (List.range (b + 1 - a).toNat).map (fun (i : Nat) => a + (i : Int))

/-- All in-range indices of the grid, in row-major order (the iteration order
of the nested `enumerate` loops of the source). -/
def grid_locs (nrows ncols : Int) : List Loc :=
  (intRange 0 (nrows - 1)).flatMap (fun r => (intRange 0 (ncols - 1)).map (fun c => (r, c)))

/-- Whether a location is an in-range index of the grid. -/
def in_grid (nrows ncols : Int) (l : Loc) : Prop :=
  0 ≤ l.1 ∧ l.1 < nrows ∧ 0 ≤ l.2 ∧ l.2 < ncols

instance (nrows ncols : Int) (l : Loc) : Decidable (in_grid nrows ncols l) := by
  unfold in_grid; infer_instance

/-- Python `set.add`: append an element unless it is already present. -/
def setAdd {α : Type} [DecidableEq α] (s : List α) (x : α) : List α :=
  if x ∈ s then s else s ++ [x]

/-- Build a Python set from an iteration, keeping first occurrences. -/
def dedupList {α : Type} [DecidableEq α] (l : List α) : List α :=
  l.foldl setAdd []

/-- Pointwise update of a map modelled as a function (the array write
`m[r][c] = v`). -/
def writeAt {α : Type} (m : Loc → α) (l : Loc) (v : α) : Loc → α :=
  fun x => if x = l then v else m x

/-- The read-modify-write `m[r][c] += v` of one score-map cell. -/
def addAt (m : Loc → ℚ) (l : Loc) (v : ℚ) : Loc → ℚ :=
  fun x => if x = l then m x + v else m x

/-- The read-modify-write `m[r][c] -= v` of one score-map cell. -/
def subAt (m : Loc → ℚ) (l : Loc) (v : ℚ) : Loc → ℚ :=
  fun x => if x = l then m x - v else m x

/-! ## Propagation engine (`map_influence` / `build_influence`) -/

/-- The wrapped neighbors examined by one expansion step of the breadth-first
search, in the exact nested-loop order of the source (`for loc in queue: for
direction in ...`). -/
def addsOf (nrows ncols : Int) (queue : List Loc) : List Loc :=
  queue.flatMap (fun loc =>
    bfs_directions.map (fun d => wrap_loc nrows ncols (loc.1 + d.1, loc.2 + d.2)))

/-- The body of one expansion step of `build_influence`: walk the stream of
examined neighbors, counting encountered friendly ants (`num_ants`), growing
the `old_locs` set and the `new_locs` layer.  Returns `Sum.inl` with the final
layer list on the in-loop `return` (capacity reached, appending the partially
built layer), otherwise `Sum.inr` with the updated counter, discovered set and
new layer. -/
def processAdds (stopLocs myAnts : List Loc) (maxAnts : Nat) (layers : List (List Loc)) :
    List Loc → Nat → List Loc → List Loc → (List (List Loc)) ⊕ (Nat × List Loc × List Loc)
  | [], numAnts, old, new => Sum.inr (numAnts, old, new)
  | a :: rest, numAnts, old, new =>
    if a ∈ myAnts then
      if numAnts + 1 ≥ maxAnts then Sum.inl (layers ++ [new])
      else if a ∉ old ∧ a ∉ stopLocs then
        processAdds stopLocs myAnts maxAnts layers rest (numAnts + 1) (old ++ [a]) (new ++ [a])
      else
        processAdds stopLocs myAnts maxAnts layers rest (numAnts + 1) old new
    else if a ∉ old ∧ a ∉ stopLocs then
      processAdds stopLocs myAnts maxAnts layers rest numAnts (old ++ [a]) (new ++ [a])
    else
      processAdds stopLocs myAnts maxAnts layers rest numAnts old new

/-- The `while True` loop of `build_influence`, with fuel.  When fuel runs out
the layers built so far are returned. -/
def bfs_loop (nrows ncols : Int) (stopLocs myAnts : List Loc) (maxAnts : Nat) :
    Nat → List Loc → List (List Loc) → Nat → List Loc → List (List Loc)
  | 0, _, layers, _, _ => layers
  | fuel + 1, queue, layers, numAnts, old =>
    match processAdds stopLocs myAnts maxAnts layers (addsOf nrows ncols queue) numAnts old [] with
    | Sum.inl res => res
    | Sum.inr (n', old', new') =>
      if new' = [] then layers
      else bfs_loop nrows ncols stopLocs myAnts maxAnts fuel new' (layers ++ [new']) n' old'

/-- `max_ants = number_of_influences.get(amap[start_loc[0]][start_loc[1]],
len(my_ants))`. -/
def capacityOf (amap : Loc → Int) (myAnts : List Loc) (start : Loc) : Nat :=
  (number_of_influences (amap start)).getD myAnts.length

/-- `build_influence`: capacity-limited breadth-first expansion from one
source, producing the list of per-distance layers. -/
def build_influence (nrows ncols : Int) (stopLocs : List Loc) (amap : Loc → Int)
    (myAnts : List Loc) (fuel : Nat) (start : Loc) : List (List Loc) :=
  bfs_loop nrows ncols stopLocs myAnts (capacityOf amap myAnts start) fuel
    [start] [[start]] 0 [start]

/-- `map_influence`: run `build_influence` for every source. -/
def map_influence (nrows ncols : Int) (stopLocs : List Loc) (amap : Loc → Int)
    (myAnts : List Loc) (fuel : Nat) (locs : List (Loc × ℚ)) : List (List (List Loc) × ℚ) :=
  locs.map (fun ls => (build_influence nrows ncols stopLocs amap myAnts fuel ls.1, ls.2))

/-- `add_influence`: accumulate `strength / (dist + 1)` for every tile of every
distance layer of every source into the score map. -/
def add_influence (imap : Loc → ℚ) (influences : List (List (List Loc) × ℚ)) : Loc → ℚ :=
  influences.foldl (fun m inf =>
    (inf.1.enum).foldl (fun m' dl =>
      dl.2.foldl (fun m'' loc => addAt m'' loc (inf.2 / ((dl.1 : ℚ) + 1))) m') m) imap

/-- The capacity-free core of one expansion step: keep exactly the examined
neighbors that are new and not propagation-stopping (the `if add not in
old_locs and not stop` branch of the source, with the ant counter ignored). -/
def sift (stopLocs : List Loc) : List Loc → List Loc → List Loc → List Loc × List Loc
  | [], old, new => (old, new)
  | a :: rest, old, new =>
    if a ∉ old ∧ a ∉ stopLocs then sift stopLocs rest (old ++ [a]) (new ++ [a])
    else sift stopLocs rest old new

/-- The uncapped reference expansion of `build_influence` (no ant capacity):
`(ideal ... n).1` is the discovered set after `n` steps and `(ideal ... n).2`
is the distance-`n` layer.  A tile's breadth-first distance from the source is
the index of the layer containing it. -/
def ideal (nrows ncols : Int) (stopLocs : List Loc) (start : Loc) : Nat → List Loc × List Loc
  | 0 => ([start], [start])
  | n + 1 =>
    let p := ideal nrows ncols stopLocs start n
    sift stopLocs (addsOf nrows ncols p.2) p.1 []

/-! ## Driver helpers (`ants.py` is outside the given sources) -/

/-- A move direction (the strings `'n'`, `'s'`, `'e'`, `'w'`, `'stay'`). -/
inductive Dir
  | n
  | s
  | e
  | w
  | stay
deriving DecidableEq, Repr

/-- The offset dictionary of `Wave.move` (and of the driver's `destination`).
`stay` never reaches it in the source. -/
def dir_offset : Dir → Loc
  | .n => (-1, 0)
  | .s => (1, 0)
  | .e => (0, 1)
  | .w => (0, -1)
  | .stay => (0, 0)

/-- Modelled from the spec: the driver-supplied "compute destination
coordinate given origin and direction" helper (`ants.destination`), one
wrapped cardinal step. -/
def destination (nrows ncols : Int) (loc : Loc) (d : Dir) : Loc :=
  wrap_loc nrows ncols (loc.1 + (dir_offset d).1, loc.2 + (dir_offset d).2)

/-- Modelled from the spec: the driver-supplied "Manhattan distance between
two wrapped coordinates" helper (`ants.distance`). -/
def distance (nrows ncols : Int) (a b : Loc) : Int :=
  min |a.1 - b.1| (nrows - |a.1 - b.1|) + min |a.2 - b.2| (ncols - |a.2 - b.2|)

/-! ## Order resolver (`issue_orders`) -/

/-- The mutable state of the `issue_orders` loop: the work queue (`my_ants`,
with `none` the in-band level marker), the claimed destinations
(`prev_destinations`), the escalation `level`, the `turns_without_order`
counter, and the orders issued so far. -/
structure RState where
  queue : List (Option Loc)
  prev : List Loc
  level : Nat
  turnsWithoutOrder : Nat
  orders : List (Loc × Dir)
deriving DecidableEq, Repr

/-- Result of one iteration of the `issue_orders` loop body. -/
inductive StepRes
  | done (orders : List (Loc × Dir))
  | next (s : RState)
deriving DecidableEq, Repr

/-- `surrounding = [ants.destination(loc, d) for d in directions] + [loc]`. -/
def surroundingOf (dest : Loc → Dir → Loc) (loc : Loc) : List Loc :=
  [dest loc .n, dest loc .s, dest loc .e, dest loc .w] ++ [loc]

/-- `directions = ['n', 's', 'e', 'w'] + ['stay']`. -/
def dirNames : List Dir := [.n, .s, .e, .w, .stay]

/-- The comparison realizing Python's
`sorted(zip(influences, range(len(influences))), reverse=True)`: descending
lexicographic order on (influence, index) pairs.  It is a total order on the
pairs in play (their indices are distinct), so any sorting algorithm produces
Python's output. -/
def revCmp : (ℚ × Nat) → (ℚ × Nat) → Bool := fun a b =>
  decide (b.1 < a.1 ∨ (b.1 = a.1 ∧ b.2 ≤ a.2))

/-- Insert into a sorted list (structurally recursive, so that concrete runs
of the resolver reduce). -/
def insertSorted {α : Type} (le : α → α → Bool) (x : α) : List α → List α
  | [] => [x]
  | y :: ys => if le x y then x :: y :: ys else y :: insertSorted le x ys

/-- Insertion sort, the model of Python's `sorted`. -/
def sortBy {α : Type} (le : α → α → Bool) : List α → List α
  | [] => []
  | x :: xs => insertSorted le x (sortBy le xs)

/-- `max_idx = [i for _, i in sorted(zip(influences, range(...)),
reverse=True)][level]`. -/
def max_idx (mmap : Loc → ℚ) (surrounding : List Loc) (level : Nat) : Nat :=
  let influences := surrounding.map mmap
  ((sortBy revCmp (influences.zip (List.range influences.length))).map Prod.snd).getD level 0

/-- One iteration of the `issue_orders` `while my_ants:` loop. -/
def resolver_step (dest : Loc → Dir → Loc) (mmap : Loc → ℚ) (s : RState) : StepRes :=
  match s.queue with
  | [] => .done s.orders
  | none :: rest =>
    if s.level + 1 > 4 then .done s.orders
    else .next { s with queue := rest, level := s.level + 1 }
  | some loc :: rest =>
    if s.turnsWithoutOrder ≥ rest.length + 1 then
      if s.level + 1 > 4 then .done s.orders
      else .next { s with queue := rest, level := s.level + 1 }
    else
      let surrounding := surroundingOf dest loc
      let idx := max_idx mmap surrounding s.level
      let dirChosen := dirNames.getD idx .n
      if dirChosen = .stay then
        .next { s with queue := rest, prev := s.prev ++ [loc] }
      else
        let moveLoc := surrounding.getD idx loc
        if some moveLoc ∈ rest then
          .next { s with queue := rest ++ [some loc], turnsWithoutOrder := s.turnsWithoutOrder + 1 }
        else if moveLoc ∈ s.prev then
          .next { s with queue := (if none ∈ rest then rest else rest ++ [none]) ++ [some loc] }
        else
          .next { s with queue := rest, prev := s.prev ++ [moveLoc], turnsWithoutOrder := 0,
                         orders := s.orders ++ [(loc, dirChosen)] }

/-- Run the resolver loop with fuel; `none` on fuel exhaustion. -/
def resolver_run (dest : Loc → Dir → Loc) (mmap : Loc → ℚ) :
    Nat → RState → Option (List (Loc × Dir))
  | 0, _ => none
  | fuel + 1, s =>
    match resolver_step dest mmap s with
    | .done os => some os
    | .next s' => resolver_run dest mmap fuel s'

/-- `issue_orders`: resolve one move per ant from the score map. -/
def issue_orders (dest : Loc → Dir → Loc) (mmap : Loc → ℚ) (myAnts : List Loc)
    (fuel : Nat) : Option (List (Loc × Dir)) :=
  resolver_run dest mmap fuel ⟨myAnts.map some, [], 0, 0, []⟩

/-! ## Combat overlay (`combat_map`) and geometry helpers -/

/-- `locs_within`: all wrapped locations of the square window of half-width
`dist` whose unwrapped Manhattan offset is at most `dist` (or `dist + 1` when
`true_distance` is set). -/
def locs_within (nrows ncols : Int) (loc : Loc) (dist : Int) (trueDistance : Bool) : List Loc :=
  (intRange (loc.1 - dist) (loc.1 + dist)).flatMap (fun r =>
    (intRange (loc.2 - dist) (loc.2 + dist)).filterMap (fun c =>
      if |loc.1 - r| + |loc.2 - c| ≤ (if trueDistance then dist + 1 else dist) then
        some (wrap_loc nrows ncols (r, c))
      else none))

/-- The `enemy_moves` set of one hostile ant: the union, over its five
one-step positions, of `locs_within(move_loc, kill_radius, true_distance)`
with `kill_radius = 2`. -/
def enemy_moves (nrows ncols : Int) (loc : Loc) : List Loc :=
  dedupList ((locs_within nrows ncols loc 1 false).flatMap
    (fun m => locs_within nrows ncols m 2 true))

/-- `die_locs`: concatenation of every hostile ant's `enemy_moves` set. -/
def die_locs_of (nrows ncols : Int) (enemyAnts : List Loc) : List Loc :=
  enemyAnts.flatMap (enemy_moves nrows ncols)

/-- The first pass of `combat_map`: subtract 150 for every entry of
`die_locs`. -/
def die_pass (nrows ncols : Int) (enemyAnts : List Loc) (mmap : Loc → ℚ) : Loc → ℚ :=
  (die_locs_of nrows ncols enemyAnts).foldl (fun m l => subAt m l 150) mmap

/-- `my_eligible_ants`: friendly ants within `kill_radius + 2` of some hostile
ant. -/
def eligible_ants (nrows ncols : Int) (myAnts enemyAnts : List Loc) : List Loc :=
  myAnts.filter (fun a => enemyAnts.any (fun e => decide (distance nrows ncols a e ≤ 2 + 2)))

/-- `attack_locs`: candidate counter-attack tiles of the eligible ants
(distance-1 neighborhoods, `true_distance` when touching another eligible
ant). -/
def attack_locs_of (nrows ncols : Int) (myAnts enemyAnts : List Loc) : List Loc :=
  let elig := eligible_ants nrows ncols myAnts enemyAnts
  elig.flatMap (fun loc =>
    let touching := elig.any (fun a => decide (distance nrows ncols loc a = 1))
    locs_within nrows ncols loc 1 touching)

/-- The second pass of `combat_map`: add 100 at every attack candidate that is
also a `die_locs` entry (once per list occurrence, as in the source). -/
def attack_pass (nrows ncols : Int) (myAnts enemyAnts : List Loc) (dieLocs : List Loc)
    (m : Loc → ℚ) : Loc → ℚ :=
  (attack_locs_of nrows ncols myAnts enemyAnts).foldl
    (fun m' l => if l ∈ dieLocs then addAt m' l 100 else m') m

/-- `combat_map`: the hostile threat-zone penalty pass followed by the
counter-attack bonus pass. -/
def combat_map (nrows ncols : Int) (mmap : Loc → ℚ) (myAnts enemyAnts : List Loc) : Loc → ℚ :=
  attack_pass nrows ncols myAnts enemyAnts (die_locs_of nrows ncols enemyAnts)
    (die_pass nrows ncols enemyAnts mmap)

/-- `hill_defense`: the friendly structure is a source iff it is unobserved or
a hostile agent is within the standoff distance (7). -/
def hill_defense (nrows ncols : Int) (vision : Loc → Bool) (myHill : Option Loc)
    (enemyAnts : List Loc) : List (Loc × ℚ) :=
  match myHill with
  | none => []
  | some h =>
    if (!vision h) || enemyAnts.any (fun e => decide (distance nrows ncols e h ≤ 7)) then
      [(h, 50)]
    else []

/-! ## Visibility, frontier sources, waves and the map markers -/

/-- `update_visibility`: observed tiles reset to 0, all others increment. -/
def update_visibility (vision : Loc → Bool) (visMap : Loc → Nat) : Loc → Nat :=
  fun l => if vision l then 0 else visMap l + 1

/-- `set_stop_locs`: add every tile whose classification stops propagation to
the (process-wide, accumulated) `stop_locs` set. -/
def set_stop_locs (nrows ncols : Int) (amap : Loc → Int) (stopLocs : List Loc) : List Loc :=
  (grid_locs nrows ncols).foldl
    (fun s l => if amap l ∈ stop_propagation then setAdd s l else s) stopLocs

/-- `add_to_map`: write a custom marker value at each given location. -/
def add_to_map (amap : Loc → Int) (locs : List Loc) (value : Int) : Loc → Int :=
  locs.foldl (fun m l => writeAt m l value) amap

/-- `influence_locs`: scan the (marked) map and collect every tile whose value
has an `influence_values` entry, with that strength. -/
def influence_locs (nrows ncols : Int) (amap : Loc → Int) : List (Loc × ℚ) :=
  (grid_locs nrows ncols).filterMap
    (fun l => (influence_values (amap l)).map (fun v => (l, v)))

/-- `edge_locs`: the deduplicated set of tiles at unwrapped Manhattan ring
distance exactly `int(view_distance) + 1` from some friendly ant whose
visibility counter is at least 5. -/
def edge_locs (nrows ncols : Int) (visMap : Loc → Nat) (viewDistance : ℚ)
    (locs : List Loc) : List Loc :=
  let dist : Int := viewDistance.floor + 1
  dedupList (locs.flatMap (fun loc =>
    (intRange (loc.1 - dist) (loc.1 + dist)).flatMap (fun r =>
      (intRange (loc.2 - dist) (loc.2 + dist)).filterMap (fun c =>
        if |loc.1 - r| + |loc.2 - c| = dist ∧ visMap (wrap_loc nrows ncols (r, c)) ≥ 5 then
          some (wrap_loc nrows ncols (r, c))
        else none))))

/-- The frontier contribution appended to `ilocs` in `do_turn`:
`[(loc, NOT_VISIBLE) for loc in self.edge_locs(my_ants, ants)]` — note the
appended strength is the marker constant `NOT_VISIBLE` itself. -/
def frontier_sources (nrows ncols : Int) (visMap : Loc → Nat) (viewDistance : ℚ)
    (myAnts : List Loc) : List (Loc × ℚ) :=
  (edge_locs nrows ncols visMap viewDistance myAnts).map
    (fun l => (l, ((NOT_VISIBLE : Int) : ℚ)))

/-- `Wave.__init__(left, width)`: the member list, unwrapped at creation. -/
def mkWave (left : Loc) (width : Nat) : List Loc :=
  left :: (List.range width).map (fun (i : Nat) => (left.1, left.2 + ((i : Int) + 1)))

/-- `Wave.move`: translate every member one step and re-wrap. -/
def moveWave (nrows ncols : Int) (d : Dir) (locs : List Loc) : List Loc :=
  locs.map (fun l => wrap_loc nrows ncols (l.1 + (dir_offset d).1, l.2 + (dir_offset d).2))

/-! ## The per-turn pipeline (`do_turn`) -/

/-- The driver-supplied inputs of one turn (§6 of the spec: grid snapshot,
observed set, agent and structure lists, and the view radius computed in
`do_setup`). -/
structure Env where
  nrows : Int
  ncols : Int
  amap : Loc → Int
  vision : Loc → Bool
  myAnts : List Loc
  enemyAnts : List Loc
  myHills : List Loc
  enemyHills : List Loc
  viewDistance : ℚ

/-- The bot's cross-turn state (class attributes of the source). -/
structure BotState where
  myHill : Option Loc
  enemyHill : Option Loc
  waves : List (List Loc)
  waveDir : Dir
  visibilityMap : Loc → Nat
  stopLocs : List Loc

/-- Everything one `do_turn` call produces or mutates. -/
structure TurnResult where
  state : BotState
  amap : Loc → Int
  ilocs : List (Loc × ℚ)
  mmap : Loc → ℚ
  orders : Option (List (Loc × Dir))

/-- The hill bookkeeping at the top of `do_turn`: record the (first) friendly
hill once. -/
def turn_my_hill (st : BotState) (env : Env) : Option Loc :=
  match st.myHill, env.myHills with
  | none, h :: _ => some h
  | none, [] => none
  | some h, _ => some h

/-- The wave direction fixed when the hill is first recorded (`'n'` iff its
row exceeds 21). -/
def turn_wave_dir (st : BotState) (env : Env) : Dir :=
  match st.myHill, env.myHills with
  | none, h :: _ => if h.1 > 21 then Dir.n else Dir.s
  | none, [] => st.waveDir
  | some _, _ => st.waveDir

/-- Record the (first known) hostile hill once. -/
def turn_enemy_hill (st : BotState) (env : Env) : Option Loc :=
  match st.enemyHill with
  | some h => some h
  | none => env.enemyHills.head?

/-- The driver map after the four `add_to_map` marker writes of `do_turn`. -/
def marked_map (env : Env) (st : BotState) : Loc → Int :=
  let amap1 := add_to_map env.amap env.myAnts ALLY_ANT
  let amap2 :=
    match turn_my_hill st env with
    | some h => add_to_map amap1 [h] MY_HILL
    | none => amap1
  let amap3 := add_to_map amap2 env.enemyAnts ENEMY_ANT
  match turn_enemy_hill st env with
  | some h => add_to_map amap3 [h] ENEMY_HILL
  | none => amap3

/-- The waves after the creation/clearing test of `do_turn` (created when the
ant count first reaches 10, cleared when it drops below). -/
def turn_waves (st : BotState) (env : Env) : List (List Loc) :=
  if env.myAnts.length ≥ 10 then
    if st.waves = [] then [mkWave (0, 5) 11, mkWave (0, 23) 11] else st.waves
  else []

/-- `do_turn`: the complete per-turn pipeline, from visibility update to order
resolution. -/
def do_turn (env : Env) (st : BotState) (bfsFuel ordersFuel : Nat) : TurnResult :=
  let nr := env.nrows
  let nc := env.ncols
  let vis1 := update_visibility env.vision st.visibilityMap
  let myHill := turn_my_hill st env
  let waveDir := turn_wave_dir st env
  let enemyHill := turn_enemy_hill st env
  let waves0 := turn_waves st env
  let imap : Loc → ℚ := fun _ => 0
  let stopLocs := set_stop_locs nr nc env.amap st.stopLocs
  let amap4 := marked_map env st
  let ilocs0 := influence_locs nr nc amap4
  let waves1 := waves0.map (moveWave nr nc waveDir)
  let ilocs1 := ilocs0 ++ waves1.flatMap (fun w => w.map (fun l => (l, (influence_values WAVE).getD 0)))
  let ilocs2 := ilocs1 ++ frontier_sources nr nc vis1 env.viewDistance env.myAnts
  let ilocs3 := ilocs2 ++ hill_defense nr nc env.vision myHill env.enemyAnts
  let influences := map_influence nr nc stopLocs amap4 env.myAnts bfsFuel ilocs3
  let mmap0 := add_influence imap influences
  let mmap1 := combat_map nr nc mmap0 env.myAnts env.enemyAnts
  let mmap2 : Loc → ℚ := fun l => if in_grid nr nc l ∧ amap4 l ∈ blocked then -10000 else mmap1 l
  let orders := issue_orders (destination nr nc) mmap2 env.myAnts ordersFuel
  { state := { myHill := myHill, enemyHill := enemyHill, waves := waves1, waveDir := waveDir,
               visibilityMap := vis1, stopLocs := stopLocs },
    amap := amap4, ilocs := ilocs3, mmap := mmap2, orders := orders }

/-! ## Generic lemmas about the set and range models -/

theorem mem_setAdd {α : Type} [DecidableEq α] {s : List α} {x y : α} :
    y ∈ setAdd s x ↔ y ∈ s ∨ y = x := by
  unfold setAdd
  split
  · constructor
    · exact Or.inl
    · rintro (h | rfl) <;> assumption
  · simp

theorem mem_foldl_setAdd {α : Type} [DecidableEq α] (l : List α) (acc : List α) (y : α) :
    y ∈ l.foldl setAdd acc ↔ y ∈ acc ∨ y ∈ l := by
  induction l generalizing acc with
  | nil => simp
  | cons a rest ih =>
    simp only [List.foldl_cons, ih, mem_setAdd, List.mem_cons]
    tauto

theorem nodup_foldl_setAdd {α : Type} [DecidableEq α] (l : List α) (acc : List α)
    (h : acc.Nodup) : (l.foldl setAdd acc).Nodup := by
  induction l generalizing acc with
  | nil => exact h
  | cons a rest ih =>
    refine ih _ ?_
    unfold setAdd
    split
    · exact h
    · simp_all [List.nodup_append]

theorem mem_dedupList {α : Type} [DecidableEq α] {l : List α} {y : α} :
    y ∈ dedupList l ↔ y ∈ l := by
  simp [dedupList, mem_foldl_setAdd]

theorem nodup_dedupList {α : Type} [DecidableEq α] (l : List α) : (dedupList l).Nodup :=
  nodup_foldl_setAdd l [] List.nodup_nil

theorem mem_intRange {a b x : Int} : x ∈ intRange a b ↔ a ≤ x ∧ x ≤ b := by
  unfold intRange
  constructor
  · intro hx
    obtain ⟨i, hi, rfl⟩ := List.mem_map.mp hx
    have := List.mem_range.mp hi
    omega
  · rintro ⟨h1, h2⟩
    refine List.mem_map.mpr ⟨(x - a).toNat, List.mem_range.mpr ?_, ?_⟩ <;> omega

/-! ## Pointwise lemmas about the score and tile maps -/

theorem writeAt_apply {α : Type} (m : Loc → α) (l : Loc) (v : α) (x : Loc) :
    writeAt m l v x = if x = l then v else m x := rfl

theorem addAt_apply (m : Loc → ℚ) (l : Loc) (v : ℚ) (x : Loc) :
    addAt m l v x = if x = l then m x + v else m x := rfl

theorem subAt_apply (m : Loc → ℚ) (l : Loc) (v : ℚ) (x : Loc) :
    subAt m l v x = if x = l then m x - v else m x := rfl

theorem foldl_writeAt_frame {α : Type} (locs : List Loc) (v : α) (m : Loc → α) (t : Loc)
    (h : t ∉ locs) : (locs.foldl (fun m' l => writeAt m' l v) m) t = m t := by
  induction locs generalizing m with
  | nil => rfl
  | cons a rest ih =>
    simp only [List.mem_cons, not_or] at h
    simp only [List.foldl_cons, ih _ h.2, writeAt_apply, if_neg h.1]

theorem add_to_map_frame (amap : Loc → Int) (locs : List Loc) (v : Int) (t : Loc)
    (h : t ∉ locs) : add_to_map amap locs v t = amap t :=
  foldl_writeAt_frame locs v amap t h

theorem add_to_map_mem (amap : Loc → Int) (locs : List Loc) (v : Int) (t : Loc)
    (h : t ∈ locs) : add_to_map amap locs v t = v := by
  induction locs generalizing amap with
  | nil => cases h
  | cons a rest ih =>
    by_cases hr : t ∈ rest
    · exact ih _ hr
    · have ht : t = a := by
        rcases List.mem_cons.mp h with h' | h'
        · exact h'
        · exact absurd h' hr
      subst ht
      unfold add_to_map
      rw [List.foldl_cons, foldl_writeAt_frame rest v (writeAt amap t v) t hr]
      simp [writeAt_apply]

/-! ## The score contribution of `add_influence` (claim C8) -/

/-- The exact score contribution of one source's layer list at one tile:
`strength / (d + 1)` per occurrence of the tile in the distance-`d` layer. -/
def source_contribution (t : Loc) (inf : List (List Loc) × ℚ) : ℚ :=
  ((inf.1.enum).map (fun dl => (dl.2.count t : ℚ) * (inf.2 / ((dl.1 : ℚ) + 1)))).sum

theorem foldl_addAt_const (locs : List Loc) (m : Loc → ℚ) (v : ℚ) (t : Loc) :
    (locs.foldl (fun m' loc => addAt m' loc v) m) t = m t + (locs.count t : ℚ) * v := by
  induction locs generalizing m with
  | nil => simp
  | cons a rest ih =>
    simp only [List.foldl_cons, ih, addAt_apply, List.count_cons, beq_iff_eq]
    by_cases h : t = a
    · simp only [if_pos h, if_pos h.symm]
      push_cast
      ring
    · have h' : ¬ a = t := fun e => h e.symm
      simp only [if_neg h, if_neg h', Nat.add_zero]

theorem foldl_layers_apply (pairs : List (Nat × List Loc)) (s : ℚ) (m : Loc → ℚ) (t : Loc) :
    (pairs.foldl (fun m' dl =>
        dl.2.foldl (fun m'' loc => addAt m'' loc (s / ((dl.1 : ℚ) + 1))) m') m) t
      = m t + (pairs.map (fun dl => (dl.2.count t : ℚ) * (s / ((dl.1 : ℚ) + 1)))).sum := by
  induction pairs generalizing m with
  | nil => simp
  | cons dl rest ih =>
    simp only [List.foldl_cons, ih, foldl_addAt_const, List.map_cons, List.sum_cons]
    ring

theorem add_influence_apply (imap : Loc → ℚ) (influences : List (List (List Loc) × ℚ))
    (t : Loc) :
    add_influence imap influences t = imap t + (influences.map (source_contribution t)).sum := by
  induction influences generalizing imap with
  | nil => simp [add_influence]
  | cons inf rest ih =>
    simp only [add_influence] at ih ⊢
    simp only [List.foldl_cons, ih, foldl_layers_apply, List.map_cons, List.sum_cons,
      source_contribution]
    ring

theorem source_contribution_eq_zero (t : Loc) (inf : List (List Loc) × ℚ)
    (h : ∀ L ∈ inf.1, t ∉ L) : source_contribution t inf = 0 := by
  unfold source_contribution
  refine List.sum_eq_zero ?_
  intro x hx
  simp only [List.mem_map] at hx
  obtain ⟨dl, hdl, rfl⟩ := hx
  have hmem : dl.2 ∈ inf.1 := by
    have := List.enum_eq_zip_range (l := inf.1)
    rw [this] at hdl
    exact (List.of_mem_zip hdl).2
  rw [List.count_eq_zero_of_not_mem (h _ hmem)]
  simp

/-- C8: for every source of strength `s`, every tile at distance `d` in its
layer list receives exactly `s / (d + 1)` from `add_influence`; the final
score of a tile is the exact sum of these contributions over all sources with
no clamping, and a source whose layers never reach a tile does not affect that
tile's score. -/
theorem C8_score_additivity (imap : Loc → ℚ) (influences : List (List (List Loc) × ℚ))
    (t : Loc) :
    add_influence imap influences t = imap t + (influences.map (source_contribution t)).sum ∧
    (∀ inf1 inf2 : List (List Loc) × ℚ, (∀ L ∈ inf2.1, t ∉ L) →
      add_influence imap [inf1, inf2] t = add_influence imap [inf1] t) := by
  constructor
  · exact add_influence_apply imap influences t
  · intro inf1 inf2 h
    rw [add_influence_apply, add_influence_apply]
    simp [source_contribution_eq_zero t inf2 h]

/-- Witness for C8 at a concrete input: a second source that never reaches
`(0,0)` leaves the first source's score there unchanged. -/
theorem C8_score_additivity_witness :
    add_influence (fun _ => 0) [([[((0, 0) : Loc)], [((0, 1) : Loc)]], 20), ([[((5, 5) : Loc)]], 7)] (0, 0)
      = add_influence (fun _ => 0) [([[((0, 0) : Loc)], [((0, 1) : Loc)]], 20)] (0, 0) :=
  (C8_score_additivity (fun _ => 0) [] (0, 0)).2
    ([[((0, 0) : Loc)], [((0, 1) : Loc)]], 20) ([[((5, 5) : Loc)]], 7) (by decide)

/-! ## The threat-zone decrement of `combat_map` (claim C6) -/

theorem foldl_subAt_const (locs : List Loc) (m : Loc → ℚ) (v : ℚ) (t : Loc) :
    (locs.foldl (fun m' l => subAt m' l v) m) t = m t - (locs.count t : ℚ) * v := by
  induction locs generalizing m with
  | nil => simp
  | cons a rest ih =>
    simp only [List.foldl_cons, ih, subAt_apply, List.count_cons, beq_iff_eq]
    by_cases h : t = a
    · simp only [if_pos h, if_pos h.symm]
      push_cast
      ring
    · have h' : ¬ a = t := fun e => h e.symm
      simp only [if_neg h, if_neg h', Nat.add_zero]

theorem count_of_nodup {l : List Loc} (h : l.Nodup) (t : Loc) :
    l.count t = if t ∈ l then 1 else 0 := by
  induction l with
  | nil => rfl
  | cons a rest ih =>
    rcases List.nodup_cons.mp h with ⟨ha, hr⟩
    simp only [List.count_cons, ih hr, List.mem_cons, beq_iff_eq]
    by_cases h1 : t = a
    · subst h1
      simp [ha]
    · have h' : ¬ a = t := fun e => h1 e.symm
      by_cases h2 : t ∈ rest
      · simp [h1, h2, h']
      · simp [h1, h2, h']

theorem count_die_locs (nrows ncols : Int) (enemyAnts : List Loc) (t : Loc) :
    (die_locs_of nrows ncols enemyAnts).count t
      = enemyAnts.countP (fun e => decide (t ∈ enemy_moves nrows ncols e)) := by
  induction enemyAnts with
  | nil => rfl
  | cons e rest ih =>
    have hnd : (enemy_moves nrows ncols e).Nodup := nodup_dedupList _
    simp only [die_locs_of, List.flatMap_cons, List.count_append, List.countP_cons]
    rw [← die_locs_of, ih, count_of_nodup hnd t]
    by_cases hm : t ∈ enemy_moves nrows ncols e
    · simp [hm, Nat.add_comm]
    · simp [hm]

theorem die_pass_apply (nrows ncols : Int) (enemyAnts : List Loc) (mmap : Loc → ℚ) (t : Loc) :
    die_pass nrows ncols enemyAnts mmap t
      = mmap t - 150 * (enemyAnts.countP (fun e => decide (t ∈ enemy_moves nrows ncols e)) : ℚ) := by
  unfold die_pass
  rw [foldl_subAt_const, count_die_locs]
  ring

/-- C6 (amended): every hostile agent's zone is the union over its five
one-step positions of the `locs_within(·, 2, true_distance)` windows (the 5×5
square intersected with Manhattan distance ≤ 3), deduplicated per agent; the
first pass of `combat_map` subtracts exactly 150 per hostile agent whose zone
contains the tile, and `combat_map` is that pass followed by the
counter-attack pass. -/
theorem C6_threat_zone (nrows ncols : Int) (mmap : Loc → ℚ) (myAnts enemyAnts : List Loc)
    (t e : Loc) :
    die_pass nrows ncols enemyAnts mmap t
      = mmap t - 150 * (enemyAnts.countP (fun e' => decide (t ∈ enemy_moves nrows ncols e')) : ℚ) ∧
    combat_map nrows ncols mmap myAnts enemyAnts
      = attack_pass nrows ncols myAnts enemyAnts (die_locs_of nrows ncols enemyAnts)
          (die_pass nrows ncols enemyAnts mmap) ∧
    (t ∈ enemy_moves nrows ncols e ↔
      ∃ m ∈ locs_within nrows ncols e 1 false, t ∈ locs_within nrows ncols m 2 true) := by
  refine ⟨die_pass_apply nrows ncols enemyAnts mmap t, rfl, ?_⟩
  unfold enemy_moves
  rw [mem_dedupList, List.mem_flatMap]

/-- Stated from the claim's words, for refutation: the claimed threat zone of
one hostile agent — all tiles within Manhattan distance 2, boundary inclusive,
of one of its five one-step positions. -/
def claimed_threat_zone (nrows ncols : Int) (e : Loc) : List Loc :=
  dedupList ((locs_within nrows ncols e 1 false).flatMap
    (fun m => locs_within nrows ncols m 2 false))

set_option maxRecDepth 40000 in
/-- C6 counterexample: with a single hostile agent at `(4,4)` on a 9×9 grid,
`combat_map` subtracts 150 at tile `(6,6)`, which is within Manhattan distance
2 of none of the five one-step positions — the claimed zone predicts score 0
there. -/
theorem C6_counterexample :
    combat_map 9 9 (fun _ => 0) [] [((4, 4) : Loc)] (6, 6) = -150 ∧
    ((6, 6) : Loc) ∉ claimed_threat_zone 9 9 (4, 4) := by
  constructor
  · have h1 : combat_map 9 9 (fun _ => 0) [] [((4, 4) : Loc)] (6, 6)
        = die_pass 9 9 [((4, 4) : Loc)] (fun _ => 0) (6, 6) := by
      simp [combat_map, attack_pass, attack_locs_of, eligible_ants]
    rw [h1, die_pass_apply]
    have hm : ((6, 6) : Loc) ∈ enemy_moves 9 9 (4, 4) := by decide
    simp [hm]
  · decide

/-! ## Frontier sources (claim C5) -/

theorem rat_floor_eq_intFloor (q : ℚ) : q.floor = ⌊q⌋ := by
  rw [Rat.floor_def', Rat.floor_def]

theorem mem_edge_locs (nrows ncols : Int) (visMap : Loc → Nat) (viewDistance : ℚ)
    (locs : List Loc) (t : Loc) :
    t ∈ edge_locs nrows ncols visMap viewDistance locs ↔
      ∃ a ∈ locs, ∃ dr dc : Int, |dr| + |dc| = ⌊viewDistance⌋ + 1 ∧
        t = wrap_loc nrows ncols (a.1 + dr, a.2 + dc) ∧ visMap t ≥ 5 := by
  unfold edge_locs
  rw [rat_floor_eq_intFloor, mem_dedupList]
  simp only [List.mem_flatMap, List.mem_filterMap]
  constructor
  · rintro ⟨a, ha, r, hr, c, hc, h⟩
    by_cases hcond : |a.1 - r| + |a.2 - c| = ⌊viewDistance⌋ + 1 ∧
        visMap (wrap_loc nrows ncols (r, c)) ≥ 5
    · rw [if_pos hcond] at h
      obtain ⟨h1, h2⟩ := hcond
      obtain rfl := Option.some_injective _ h
      refine ⟨a, ha, r - a.1, c - a.2, ?_, ?_, h2⟩
      · rw [abs_sub_comm a.1 r, abs_sub_comm a.2 c] at h1
        simpa using h1
      · simp
    · rw [if_neg hcond] at h
      cases h
  · rintro ⟨a, ha, dr, dc, h1, rfl, h3⟩
    have hdr : |dr| ≤ ⌊viewDistance⌋ + 1 := by
      have := abs_nonneg dc
      omega
    have hdc : |dc| ≤ ⌊viewDistance⌋ + 1 := by
      have := abs_nonneg dr
      omega
    rw [abs_le] at hdr hdc
    refine ⟨a, ha, a.1 + dr, mem_intRange.mpr ⟨by omega, by omega⟩,
      a.2 + dc, mem_intRange.mpr ⟨by omega, by omega⟩, ?_⟩
    have hcond : |a.1 - (a.1 + dr)| + |a.2 - (a.2 + dc)| = ⌊viewDistance⌋ + 1 ∧
        visMap (wrap_loc nrows ncols (a.1 + dr, a.2 + dc)) ≥ 5 := by
      refine ⟨?_, h3⟩
      have e1 : a.1 - (a.1 + dr) = -dr := by ring
      have e2 : a.2 - (a.2 + dc) = -dc := by ring
      rw [e1, e2, abs_neg, abs_neg]
      exact h1
    rw [if_pos hcond]

/-- C5 (amended): the frontier sources of a turn are exactly the tiles at
unwrapped Manhattan ring distance exactly `int(view_distance) + 1` (the floor,
not the ceiling) from at least one friendly agent whose visibility counter is
at least 5, deduplicated, and each contributes with strength `NOT_VISIBLE`
(60), not the 0.1 table weight. -/
theorem C5_frontier_sources (nrows ncols : Int) (visMap : Loc → Nat) (viewDistance : ℚ)
    (myAnts : List Loc) (p : Loc × ℚ) :
    (p ∈ frontier_sources nrows ncols visMap viewDistance myAnts ↔
      p.2 = ((NOT_VISIBLE : Int) : ℚ) ∧
      ∃ a ∈ myAnts, ∃ dr dc : Int, |dr| + |dc| = ⌊viewDistance⌋ + 1 ∧
        p.1 = wrap_loc nrows ncols (a.1 + dr, a.2 + dc) ∧ visMap p.1 ≥ 5) ∧
    ((frontier_sources nrows ncols visMap viewDistance myAnts).map Prod.fst).Nodup := by
  constructor
  · unfold frontier_sources
    rw [List.mem_map]
    constructor
    · rintro ⟨l, hl, rfl⟩
      rw [mem_edge_locs] at hl
      exact ⟨rfl, hl⟩
    · rintro ⟨hs, hex⟩
      refine ⟨p.1, ?_, ?_⟩
      · rw [mem_edge_locs]
        exact hex
      · obtain ⟨p1, p2⟩ := p
        simp only at hs
        rw [hs]
  · have hnd : (edge_locs nrows ncols visMap viewDistance myAnts).Nodup := by
      unfold edge_locs
      exact nodup_dedupList _
    unfold frontier_sources
    rw [List.map_map]
    simpa [Function.comp_def] using hnd

/-- Stated from the claim's words, for refutation (C5): a frontier source as
claimed — strength 0.1 and ring distance exactly `⌈view_radius⌉ + 1`. -/
def claimed_frontier (nrows ncols : Int) (visMap : Loc → Nat) (viewDistance : ℚ)
    (myAnts : List Loc) (p : Loc × ℚ) : Prop :=
  p.2 = 1/10 ∧ ∃ a ∈ myAnts, ∃ dr dc : Int, |dr| + |dc| = ⌈viewDistance⌉ + 1 ∧
    p.1 = wrap_loc nrows ncols (a.1 + dr, a.2 + dc) ∧ visMap p.1 ≥ 5

set_option maxRecDepth 40000 in
/-- C5 counterexample: with one friendly agent at `(2,2)` on a 5×5 grid,
`view_distance = 3/2` and every visibility counter at 9, the turn's frontier
sources contain `((0,2), 60)` — strength 60 (the `NOT_VISIBLE` constant, not
0.1) at ring distance `⌊3/2⌋ + 1 = 2` (not `⌈3/2⌉ + 1 = 3`) — which the
claimed description excludes. -/
theorem C5_counterexample :
    (((0, 2) : Loc), (60 : ℚ)) ∈
      frontier_sources 5 5 (fun _ => 9) (Rat.divInt 3 2) [((2, 2) : Loc)] ∧
    ¬ claimed_frontier 5 5 (fun _ => 9) (Rat.divInt 3 2) [((2, 2) : Loc)]
        (((0, 2) : Loc), (60 : ℚ)) := by
  constructor
  · have hedge : ((0, 2) : Loc) ∈ edge_locs 5 5 (fun _ => 9) (Rat.divInt 3 2)
        [((2, 2) : Loc)] := by
      decide
    refine List.mem_map.mpr ⟨(0, 2), hedge, ?_⟩
    norm_num [NOT_VISIBLE]
  · intro h
    have h60 : (60 : ℚ) = 1/10 := h.1
    norm_num at h60

/-! ## The driver map mutation (claims C9 and C10) -/

theorem marked_map_frame (env : Env) (st : BotState) (t : Loc)
    (h1 : t ∉ env.myAnts) (h2 : t ∉ env.enemyAnts)
    (h3 : turn_my_hill st env ≠ some t) (h4 : turn_enemy_hill st env ≠ some t) :
    marked_map env st t = env.amap t := by
  unfold marked_map
  have hm1 : ∀ m : Loc → Int, (match turn_my_hill st env with
      | some h => add_to_map m [h] MY_HILL
      | none => m) t = m t := by
    intro m
    cases hh : turn_my_hill st env with
    | none => rfl
    | some h =>
      have : t ∉ [h] := by
        simp only [List.mem_singleton]
        intro he
        exact h3 (by rw [hh, he])
      exact add_to_map_frame m [h] MY_HILL t this
  have hm2 : ∀ m : Loc → Int, (match turn_enemy_hill st env with
      | some h => add_to_map m [h] ENEMY_HILL
      | none => m) t = m t := by
    intro m
    cases hh : turn_enemy_hill st env with
    | none => rfl
    | some h =>
      have : t ∉ [h] := by
        simp only [List.mem_singleton]
        intro he
        exact h4 (by rw [hh, he])
      exact add_to_map_frame m [h] ENEMY_HILL t this
  rw [hm2, add_to_map_frame _ env.enemyAnts ENEMY_ANT t h2, hm1,
    add_to_map_frame _ env.myAnts ALLY_ANT t h1]

/-- C9 (amended): `do_turn` does mutate the driver-supplied grid in place —
the map it leaves behind is `marked_map`, the snapshot overwritten with the
`ALLY_ANT`, `MY_HILL`, `ENEMY_ANT` and `ENEMY_HILL` marker codes — but every
tile that is not a friendly agent, hostile agent, friendly structure or
hostile structure location keeps its snapshot classification. -/
theorem C9_marker_writes (env : Env) (st : BotState) (bfsFuel ordersFuel : Nat) (t : Loc) :
    (do_turn env st bfsFuel ordersFuel).amap = marked_map env st ∧
    (t ∉ env.myAnts → t ∉ env.enemyAnts → turn_my_hill st env ≠ some t →
      turn_enemy_hill st env ≠ some t →
      (do_turn env st bfsFuel ordersFuel).amap t = env.amap t) := by
  refine ⟨rfl, ?_⟩
  intro h1 h2 h3 h4
  exact marked_map_frame env st t h1 h2 h3 h4

/-- The bot state at the start of a game: no hills recorded, no waves, zeroed
visibility counters, empty `stop_locs`. -/
def fresh_state : BotState :=
  { myHill := none, enemyHill := none, waves := [], waveDir := Dir.s,
    visibilityMap := fun _ => 0, stopLocs := [] }

/-- A minimal concrete turn: 3×3 all-land grid, one friendly agent at `(1,1)`,
one friendly hill at `(0,0)`, everything visible, no hostiles. -/
def env_c9 : Env :=
  { nrows := 3, ncols := 3, amap := fun _ => LAND, vision := fun _ => true,
    myAnts := [(1, 1)], enemyAnts := [], myHills := [(0, 0)], enemyHills := [],
    viewDistance := 1 }

/-- C9 counterexample: the land tile under the friendly agent is reclassified
to `ALLY_ANT` (20) by the turn's pipeline, so the driver-supplied grid is not
left unchanged. -/
theorem C9_counterexample :
    (do_turn env_c9 fresh_state 1 1).amap (1, 1) ≠ env_c9.amap (1, 1) := by
  decide

/-- Witness for C9 at a concrete input: a tile carrying no marker keeps its
classification. -/
theorem C9_marker_writes_witness :
    (do_turn env_c9 fresh_state 1 1).amap (2, 2) = env_c9.amap (2, 2) :=
  (C9_marker_writes env_c9 fresh_state 1 1 (2, 2)).2 (by decide) (by decide)
    (by decide) (by decide)

/-- C10: immediately before order resolution, every in-grid tile whose
snapshot classification is food or water (and which no marker write covers)
has score exactly `-10000`: the blocking pass assigns, rather than adds, and
discards all accumulated influence there. -/
theorem C10_blocked_assignment (env : Env) (st : BotState) (bfsFuel ordersFuel : Nat) (t : Loc)
    (hg : in_grid env.nrows env.ncols t)
    (hb : env.amap t = FOOD ∨ env.amap t = WATER)
    (h1 : t ∉ env.myAnts) (h2 : t ∉ env.enemyAnts)
    (h3 : turn_my_hill st env ≠ some t) (h4 : turn_enemy_hill st env ≠ some t) :
    (do_turn env st bfsFuel ordersFuel).mmap t = -10000 := by
  have hfr := marked_map_frame env st t h1 h2 h3 h4
  have hcond : in_grid env.nrows env.ncols t ∧ marked_map env st t ∈ blocked := by
    refine ⟨hg, ?_⟩
    rw [hfr]
    rcases hb with h | h <;> simp [blocked, h]
  show (if in_grid env.nrows env.ncols t ∧ marked_map env st t ∈ blocked then (-10000 : ℚ)
    else _) = -10000
  rw [if_pos hcond]

/-- A 2×3 grid with a food tile at `(0,1)`, one agent at `(1,1)` and a hill at
`(0,0)`. -/
def env_c10 : Env :=
  { nrows := 2, ncols := 3,
    amap := fun l => if l = (0, 1) then FOOD else LAND,
    vision := fun _ => true,
    myAnts := [(1, 1)], enemyAnts := [], myHills := [(0, 0)], enemyHills := [],
    viewDistance := 1 }

/-- Witness for C10 at a concrete input: the food tile's final score is
`-10000`. -/
theorem C10_blocked_assignment_witness :
    (do_turn env_c10 fresh_state 8 8).mmap (0, 1) = -10000 :=
  C10_blocked_assignment env_c10 fresh_state 8 8 (0, 1) (by decide) (Or.inl (by decide))
    (by decide) (by decide) (by decide) (by decide)

/-! ## Source capacities (claim C4) -/

/-- A turn with ten friendly agents, which triggers wave creation: 4×8 land
grid, agents on rows 2–3, hill at `(0,0)` (so the waves travel south onto row
1), everything visible, no hostiles. -/
def env_c4 : Env :=
  { nrows := 4, ncols := 8, amap := fun _ => LAND, vision := fun _ => true,
    myAnts := [(3, 0), (3, 1), (3, 2), (3, 3), (3, 4), (3, 5), (3, 6), (3, 7), (2, 0), (2, 1)],
    enemyAnts := [], myHills := [(0, 0)], enemyHills := [], viewDistance := 1 }

set_option maxRecDepth 200000 in
/-- C4: the wave-member source at `(1,5)` is in the turn's catalog, but the
capacity its expansion uses is looked up from the marked map value at `(1,5)`
(`LAND`, since the `WAVE` marker is never written into the map), so it
defaults to the friendly-agent count 10 — not the table's `WAVE → 2` entry. -/
theorem C4_wave_capacity_bug :
    (((1, 5) : Loc), (5 : ℚ)) ∈ (do_turn env_c4 fresh_state 1 1).ilocs ∧
    (do_turn env_c4 fresh_state 1 1).amap (1, 5) = LAND ∧
    capacityOf ((do_turn env_c4 fresh_state 1 1).amap) env_c4.myAnts (1, 5) = 10 ∧
    number_of_influences WAVE = some 2 := by
  exact ⟨by decide, by decide, by decide, by decide⟩

/-! ## The order resolver's no-collision invariant (claim C1) -/

theorem insertSorted_perm {α : Type} (le : α → α → Bool) (x : α) (l : List α) :
    (insertSorted le x l).Perm (x :: l) := by
  induction l with
  | nil => exact List.Perm.refl _
  | cons y ys ih =>
    unfold insertSorted
    split
    · exact List.Perm.refl _
    · exact (ih.cons y).trans (List.Perm.swap x y ys)

theorem sortBy_perm {α : Type} (le : α → α → Bool) (l : List α) :
    (sortBy le l).Perm l := by
  induction l with
  | nil => exact List.Perm.refl _
  | cons x xs ih =>
    unfold sortBy
    exact (insertSorted_perm le x (sortBy le xs)).trans (ih.cons x)

theorem max_idx_lt (mmap : Loc → ℚ) (surrounding : List Loc) (level : Nat)
    (h : level < surrounding.length) :
    max_idx mmap surrounding level < surrounding.length := by
  unfold max_idx
  have hlen : (surrounding.map mmap).length = surrounding.length := List.length_map _ _
  set infl := surrounding.map mmap with hinfl
  set L := sortBy revCmp (infl.zip (List.range infl.length)) with hL
  have hLlen : L.length = infl.length := by
    rw [hL, (sortBy_perm revCmp _).length_eq, List.length_zip, List.length_range, min_self]
  have hlt : level < (L.map Prod.snd).length := by
    rw [List.length_map, hLlen, hlen]
    exact h
  rw [List.getD_eq_getElem _ _ hlt]
  have hmem : (L.map Prod.snd)[level] ∈ L.map Prod.snd := List.getElem_mem hlt
  obtain ⟨p, hp, hpe⟩ := List.mem_map.mp hmem
  have hpz : p ∈ infl.zip (List.range infl.length) :=
    ((sortBy_perm revCmp _).mem_iff).mp hp
  have hrange := (List.of_mem_zip hpz).2
  rw [List.mem_range] at hrange
  rw [← hpe]
  omega

theorem surroundingOf_length (dest : Loc → Dir → Loc) (loc : Loc) :
    (surroundingOf dest loc).length = 5 := rfl

theorem dest_of_choice (dest : Loc → Dir → Loc) (loc : Loc) (idx : Nat) (h5 : idx < 5)
    (hns : dirNames.getD idx Dir.n ≠ Dir.stay) :
    (surroundingOf dest loc).getD idx loc = dest loc (dirNames.getD idx Dir.n) := by
  interval_cases idx <;> simp_all [surroundingOf, dirNames]

/-- The loop invariant of `issue_orders`: the escalation level never exceeds
4 while running, every issued order's destination is in `prev_destinations`,
and the issued destinations are pairwise distinct. -/
def resolver_inv (dest : Loc → Dir → Loc) (s : RState) : Prop :=
  s.level ≤ 4 ∧ (∀ o ∈ s.orders, dest o.1 o.2 ∈ s.prev) ∧
  List.Pairwise (fun o1 o2 => dest o1.1 o1.2 ≠ dest o2.1 o2.2) s.orders

theorem resolver_step_done_orders (dest : Loc → Dir → Loc) (mmap : Loc → ℚ) (s : RState)
    (os : List (Loc × Dir)) (hstep : resolver_step dest mmap s = .done os) :
    os = s.orders := by
  obtain ⟨q, prev, level, two, orders⟩ := s
  unfold resolver_step at hstep
  rcases q with _ | ⟨x, rest⟩
  · cases hstep
    rfl
  · rcases x with _ | loc
    · dsimp only at hstep
      split at hstep
      · cases hstep
        rfl
      · cases hstep
    · dsimp only at hstep
      split at hstep
      · split at hstep
        · cases hstep
          rfl
        · cases hstep
      · split at hstep
        · cases hstep
        · split at hstep
          · cases hstep
          · split at hstep
            · cases hstep
            · cases hstep

theorem resolver_step_inv (dest : Loc → Dir → Loc) (mmap : Loc → ℚ) (s s' : RState)
    (hstep : resolver_step dest mmap s = .next s') (hinv : resolver_inv dest s) :
    resolver_inv dest s' := by
  obtain ⟨q, prev, level, two, orders⟩ := s
  obtain ⟨hlev, hprev, hpw⟩ := hinv
  unfold resolver_step at hstep
  rcases q with _ | ⟨x, rest⟩
  · cases hstep
  · rcases x with _ | loc
    · dsimp only at hstep
      split at hstep
      · cases hstep
      · next hgt =>
        cases hstep
        exact ⟨show level + 1 ≤ 4 by omega, hprev, hpw⟩
    · dsimp only at hstep
      split at hstep
      · -- turns_without_order trigger: same as the marker case
        split at hstep
        · cases hstep
        · next hgt =>
          cases hstep
          exact ⟨show level + 1 ≤ 4 by omega, hprev, hpw⟩
      · next htwo =>
        -- main body
        split at hstep
        · -- stay
          cases hstep
          refine ⟨hlev, fun o ho => List.mem_append_left _ (hprev o ho), hpw⟩
        · next hnstay =>
          split at hstep
          · -- destination occupied by a queued ant: requeue
            cases hstep
            exact ⟨hlev, hprev, hpw⟩
          · split at hstep
            · -- destination already claimed: requeue behind a marker
              cases hstep
              exact ⟨hlev, hprev, hpw⟩
            · next hclaimed =>
              -- emit an order
              cases hstep
              have hlev' : level ≤ 4 := hlev
              have hidx : max_idx mmap (surroundingOf dest loc) level < 5 := by
                have := max_idx_lt mmap (surroundingOf dest loc) level
                  (by rw [surroundingOf_length]; omega)
                rwa [surroundingOf_length] at this
              have hdest : (surroundingOf dest loc).getD
                    (max_idx mmap (surroundingOf dest loc) level) loc
                  = dest loc (dirNames.getD (max_idx mmap (surroundingOf dest loc) level) Dir.n) :=
                dest_of_choice dest loc _ hidx hnstay
              have hmv : dest loc (dirNames.getD (max_idx mmap (surroundingOf dest loc) level)
                  Dir.n) ∉ prev := by
                rw [← hdest]
                exact hclaimed
              constructor
              · exact hlev
              constructor
              · intro o ho
                rcases List.mem_append.mp ho with h | h
                · exact List.mem_append_left _ (hprev o h)
                · rcases List.mem_singleton.mp h with rfl
                  exact List.mem_append_right _ (List.mem_singleton.mpr hdest.symm)
              · rw [List.pairwise_append]
                refine ⟨hpw, List.pairwise_singleton _ _, ?_⟩
                intro o ho o' ho'
                rcases List.mem_singleton.mp ho' with rfl
                intro heq
                exact hmv (heq ▸ hprev o ho)

theorem resolver_run_pairwise (dest : Loc → Dir → Loc) (mmap : Loc → ℚ) (fuel : Nat)
    (s : RState) (os : List (Loc × Dir)) (hinv : resolver_inv dest s)
    (h : resolver_run dest mmap fuel s = some os) :
    List.Pairwise (fun o1 o2 => dest o1.1 o1.2 ≠ dest o2.1 o2.2) os := by
  induction fuel generalizing s with
  | zero => cases h
  | succ fuel ih =>
    rw [resolver_run] at h
    cases hstep : resolver_step dest mmap s with
    | done osd =>
      rw [hstep] at h
      obtain rfl := Option.some_injective _ h
      rw [resolver_step_done_orders dest mmap s osd hstep]
      exact hinv.2.2
    | next s' =>
      rw [hstep] at h
      exact ih s' (resolver_step_inv dest mmap s s' hstep hinv) h

/-- C1: for every score field, destination helper and list of distinct agent
coordinates, when `issue_orders` completes, any two emitted orders have
distinct destination tiles. -/
theorem C1_no_destination_collision (dest : Loc → Dir → Loc) (mmap : Loc → ℚ)
    (agents : List Loc) (fuel : Nat) (orders : List (Loc × Dir))
    (hnd : agents.Nodup)
    (h : issue_orders dest mmap agents fuel = some orders) :
    List.Pairwise (fun o1 o2 => dest o1.1 o1.2 ≠ dest o2.1 o2.2) orders :=
  resolver_run_pairwise dest mmap fuel _ orders
    ⟨by norm_num, by simp, by simp⟩ h

set_option maxRecDepth 40000 in
/-- Witness for C1 at a concrete input: two agents on a 3×4 torus with an
eastward score gradient get orders to `(0,3)` (west, wrapping) and `(0,2)`
(east), two distinct destinations. -/
theorem C1_no_destination_collision_witness :
    List.Pairwise
      (fun o1 o2 : Loc × Dir =>
        destination 3 4 o1.1 o1.2 ≠ destination 3 4 o2.1 o2.2)
      [(((0, 0) : Loc), Dir.w), (((0, 1) : Loc), Dir.e)] :=
  C1_no_destination_collision (destination 3 4) (fun l => (l.2 : ℚ))
    [(0, 0), (0, 1)] 10 [(((0, 0) : Loc), Dir.w), (((0, 1) : Loc), Dir.e)]
    (by decide) (by decide)

/-! ## Termination of the order resolver (claim C2) -/

/-- The five-component lexicographic termination measure of the
`issue_orders` loop: remaining level budget, absence of an in-queue marker,
number of queued agents, queue-length slack over the progress counter, and
number of agents before the first marker. -/
def rmeasure (s : RState) : Nat × Nat × Nat × Nat × Nat :=
  (5 - s.level,
   if none ∈ s.queue then 0 else 1,
   s.queue.countP (fun x => x.isSome),
   s.queue.length + 1 - s.turnsWithoutOrder,
   (s.queue.takeWhile (fun x => x.isSome)).length)

/-- Lexicographic order on the measure. -/
def rmLt : (Nat × Nat × Nat × Nat × Nat) → (Nat × Nat × Nat × Nat × Nat) → Prop :=
  Prod.Lex (· < ·) (Prod.Lex (· < ·) (Prod.Lex (· < ·) (Prod.Lex (· < ·) (· < ·))))

theorem rmLt_wf : WellFounded rmLt :=
  WellFounded.prod_lex wellFounded_lt (WellFounded.prod_lex wellFounded_lt
    (WellFounded.prod_lex wellFounded_lt (WellFounded.prod_lex wellFounded_lt wellFounded_lt)))

theorem rmLt_of1 {a a' b b' c c' d d' e e' : Nat} (h : a' < a) :
    rmLt (a', b', c', d', e') (a, b, c, d, e) :=
  Prod.Lex.left _ _ h

theorem rmLt_of2 {a b b' c c' d d' e e' : Nat} (h : b' < b) :
    rmLt (a, b', c', d', e') (a, b, c, d, e) :=
  Prod.Lex.right _ (Prod.Lex.left _ _ h)

theorem rmLt_of3 {a b c c' d d' e e' : Nat} (h : c' < c) :
    rmLt (a, b, c', d', e') (a, b, c, d, e) :=
  Prod.Lex.right _ (Prod.Lex.right _ (Prod.Lex.left _ _ h))

theorem rmLt_of4 {a b c d d' e e' : Nat} (h : d' < d) :
    rmLt (a, b, c, d', e') (a, b, c, d, e) :=
  Prod.Lex.right _ (Prod.Lex.right _ (Prod.Lex.right _ (Prod.Lex.left _ _ h)))

theorem rmLt_of5 {a b c d e e' : Nat} (h : e' < e) :
    rmLt (a, b, c, d, e') (a, b, c, d, e) :=
  Prod.Lex.right _ (Prod.Lex.right _ (Prod.Lex.right _ (Prod.Lex.right _ h)))

theorem takeWhile_append_of_none_mem (rest l2 : List (Option Loc)) (h : none ∈ rest) :
    ((rest ++ l2).takeWhile (fun x => x.isSome))
      = rest.takeWhile (fun x => x.isSome) := by
  induction rest with
  | nil => cases h
  | cons y ys ih =>
    cases y with
    | none => simp [List.takeWhile_cons]
    | some a =>
      have h' : none ∈ ys := by simpa using h
      simp [List.takeWhile_cons, ih h']

theorem resolver_step_decrease (dest : Loc → Dir → Loc) (mmap : Loc → ℚ) (s s' : RState)
    (hstep : resolver_step dest mmap s = .next s') (hlev : s.level ≤ 4) :
    rmLt (rmeasure s') (rmeasure s) ∧ s'.level ≤ 4 := by
  obtain ⟨q, prev, level, two, orders⟩ := s
  have hl : level ≤ 4 := hlev
  unfold resolver_step at hstep
  rcases q with _ | ⟨x, rest⟩
  · cases hstep
  · rcases x with _ | loc
    · dsimp only at hstep
      split at hstep
      · cases hstep
      · next hgt =>
        cases hstep
        refine ⟨?_, show level + 1 ≤ 4 by omega⟩
        simp only [rmeasure]
        exact rmLt_of1 (by omega)
    · dsimp only at hstep
      split at hstep
      · -- turns_without_order trigger
        split at hstep
        · cases hstep
        · next hgt =>
          cases hstep
          refine ⟨?_, show level + 1 ≤ 4 by omega⟩
          simp only [rmeasure]
          exact rmLt_of1 (by omega)
      · next htwo =>
        split at hstep
        · -- stay: an agent leaves the queue for good
          cases hstep
          refine ⟨?_, hl⟩
          simp only [rmeasure]
          have hb : (if (none : Option Loc) ∈ some loc :: rest then 0 else 1)
              = (if (none : Option Loc) ∈ rest then 0 else 1) := by
            simp
          rw [hb]
          exact rmLt_of3 (by simp [List.countP_cons])
        · split at hstep
          · -- requeue: destination occupied by a queued agent
            cases hstep
            refine ⟨?_, hl⟩
            simp only [rmeasure]
            have hb : (if (none : Option Loc) ∈ some loc :: rest then 0 else 1)
                = (if (none : Option Loc) ∈ rest ++ [some loc] then 0 else 1) := by
              simp
            have hc : (some loc :: rest).countP (fun x => x.isSome)
                = (rest ++ [some loc]).countP (fun x => x.isSome) := by
              simp [List.countP_cons, List.countP_append, Nat.add_comm]
            rw [hb, hc]
            refine rmLt_of4 ?_
            have h1 : (rest ++ [some loc]).length = rest.length + 1 := by simp
            have h2 : (some loc :: rest).length = rest.length + 1 := by simp
            rw [h1, h2]
            omega
          · split at hstep
            · -- destination already claimed: requeue behind a marker
              cases hstep
              refine ⟨?_, hl⟩
              simp only [rmeasure]
              by_cases hm : (none : Option Loc) ∈ rest
              · rw [if_pos hm]
                have hb : (if (none : Option Loc) ∈ some loc :: rest then 0 else 1)
                    = (if (none : Option Loc) ∈ rest ++ [some loc] then 0 else 1) := by
                  simp [hm]
                have hc : (some loc :: rest).countP (fun x => x.isSome)
                    = (rest ++ [some loc]).countP (fun x => x.isSome) := by
                  simp [List.countP_cons, List.countP_append, Nat.add_comm]
                have hd : (some loc :: rest).length + 1 - two
                    = (rest ++ [some loc]).length + 1 - two := by
                  simp
                rw [hb, hc, hd]
                refine rmLt_of5 ?_
                rw [takeWhile_append_of_none_mem rest [some loc] hm]
                have he : ((some loc :: rest).takeWhile (fun x => x.isSome)).length
                    = (rest.takeWhile (fun x => x.isSome)).length + 1 := by
                  simp [List.takeWhile_cons]
                rw [he]
                omega
              · rw [if_neg hm]
                have hb1 : (if (none : Option Loc) ∈ some loc :: rest then 0 else 1) = 1 := by
                  simp [hm]
                have hb2 : (if (none : Option Loc) ∈ (rest ++ [none]) ++ [some loc]
                    then 0 else 1) = 0 := by
                  simp
                rw [hb1, hb2]
                exact rmLt_of2 (by omega)
            · -- emit an order: an agent leaves the queue for good
              cases hstep
              refine ⟨?_, hl⟩
              simp only [rmeasure]
              have hb : (if (none : Option Loc) ∈ some loc :: rest then 0 else 1)
                  = (if (none : Option Loc) ∈ rest then 0 else 1) := by
                simp
              rw [hb]
              exact rmLt_of3 (by simp [List.countP_cons])

theorem resolver_run_terminates (dest : Loc → Dir → Loc) (mmap : Loc → ℚ) (s : RState)
    (hlev : s.level ≤ 4) : ∃ fuel, (resolver_run dest mmap fuel s).isSome := by
  have hwf : WellFounded (fun s1 s2 : RState => rmLt (rmeasure s1) (rmeasure s2)) :=
    InvImage.wf rmeasure rmLt_wf
  induction s using hwf.induction with
  | _ s IH =>
  cases hstep : resolver_step dest mmap s with
  | done os =>
    refine ⟨1, ?_⟩
    simp [resolver_run, hstep]
  | next s' =>
    obtain ⟨hdec, hlev'⟩ := resolver_step_decrease dest mmap s s' hstep hlev
    obtain ⟨fuel, hf⟩ := IH s' hdec hlev'
    refine ⟨fuel + 1, ?_⟩
    simpa [resolver_run, hstep] using hf

/-- C2: for every score field and agent list the resolver loop terminates
(some finite fuel completes it); popping a marker or having the
turns-without-progress counter reach the remaining queue length plus one
increments the escalation level, and as soon as the level would exceed 4 the
loop exits with the orders issued so far, leaving the remaining agents
without orders. -/
theorem C2_resolver_termination (dest : Loc → Dir → Loc) (mmap : Loc → ℚ) :
    (∀ agents : List Loc, ∃ fuel orders,
        issue_orders dest mmap agents fuel = some orders) ∧
    (∀ s : RState, ∀ x rest, s.queue = x :: rest →
        (x = none ∨ s.turnsWithoutOrder ≥ rest.length + 1) →
        (s.level = 4 → resolver_step dest mmap s = .done s.orders) ∧
        (s.level < 4 →
          resolver_step dest mmap s = .next { s with queue := rest, level := s.level + 1 })) := by
  constructor
  · intro agents
    obtain ⟨fuel, hf⟩ := resolver_run_terminates dest mmap
      ⟨agents.map some, [], 0, 0, []⟩ (by norm_num)
    obtain ⟨os, hos⟩ := Option.isSome_iff_exists.mp hf
    exact ⟨fuel, os, hos⟩
  · intro s x rest hq htrig
    obtain ⟨q, prev, level, two, orders⟩ := s
    have hq' : q = x :: rest := hq
    subst hq'
    constructor
    · intro h4
      have h4' : level = 4 := h4
      subst h4'
      rcases x with _ | loc
      · unfold resolver_step
        dsimp only
        rw [if_pos (by omega : 4 + 1 > 4)]
      · have htwo : two ≥ rest.length + 1 := by
          rcases htrig with h | h
          · exact Option.noConfusion h
          · exact h
        unfold resolver_step
        dsimp only
        rw [if_pos htwo, if_pos (by omega : 4 + 1 > 4)]
    · intro hlt
      have hlt' : level < 4 := hlt
      rcases x with _ | loc
      · unfold resolver_step
        dsimp only
        rw [if_neg (by omega : ¬ level + 1 > 4)]
      · have htwo : two ≥ rest.length + 1 := by
          rcases htrig with h | h
          · exact Option.noConfusion h
          · exact h
        unfold resolver_step
        dsimp only
        rw [if_pos htwo, if_neg (by omega : ¬ level + 1 > 4)]

/-- Witness for C2 at concrete inputs: the resolver completes for one agent
on a zero score field, and a state at level 4 whose queue front is a marker
stops immediately, issuing nothing for the remaining queued agent. -/
theorem C2_resolver_termination_witness :
    (∃ fuel orders, issue_orders (destination 3 4) (fun _ => (0 : ℚ)) [((0, 0) : Loc)] fuel
        = some orders) ∧
    resolver_step (destination 3 4) (fun _ => (0 : ℚ))
        ⟨[none, some ((0, 0) : Loc)], [], 4, 0, []⟩ = .done [] := by
  constructor
  · exact (C2_resolver_termination (destination 3 4) (fun _ => 0)).1 [(0, 0)]
  · exact ((C2_resolver_termination (destination 3 4) (fun _ => 0)).2
      ⟨[none, some (0, 0)], [], 4, 0, []⟩ none [some (0, 0)] rfl (Or.inl rfl)).1 rfl

/-! ## Breadth-first expansion lemmas (claims C3 and C7) -/

theorem sift_append (stop : List Loc) (l1 l2 old new : List Loc) :
    sift stop (l1 ++ l2) old new
      = sift stop l2 (sift stop l1 old new).1 (sift stop l1 old new).2 := by
  induction l1 generalizing old new with
  | nil => rfl
  | cons a t ih =>
    simp only [List.cons_append, sift]
    split
    · exact ih _ _
    · exact ih _ _

theorem sift_old_sub (stop : List Loc) (l : List Loc) :
    ∀ old new, ∀ x ∈ old, x ∈ (sift stop l old new).1 := by
  induction l with
  | nil => intro old new x hx; exact hx
  | cons a t ih =>
    intro old new x hx
    simp only [sift]
    split
    · exact ih _ _ x (List.mem_append_left _ hx)
    · exact ih _ _ x hx

theorem sift_new_spec (stop : List Loc) (l : List Loc) :
    ∀ old new, ∀ x ∈ (sift stop l old new).2,
      x ∈ new ∨ (x ∈ l ∧ x ∉ old ∧ x ∉ stop) := by
  induction l with
  | nil => intro old new x hx; exact Or.inl hx
  | cons a t ih =>
    intro old new x hx
    simp only [sift] at hx
    split at hx
    · next hcond =>
      rcases ih _ _ x hx with h | ⟨h1, h2, h3⟩
      · rcases List.mem_append.mp h with h' | h'
        · exact Or.inl h'
        · rcases List.mem_singleton.mp h' with rfl
          exact Or.inr ⟨List.mem_cons_self _ _, hcond.1, hcond.2⟩
      · refine Or.inr ⟨List.mem_cons_of_mem _ h1, ?_, h3⟩
        intro hold
        exact h2 (List.mem_append_left _ hold)
    · rcases ih _ _ x hx with h | ⟨h1, h2, h3⟩
      · exact Or.inl h
      · exact Or.inr ⟨List.mem_cons_of_mem _ h1, h2, h3⟩

theorem sift_new_sub_old (stop : List Loc) (l : List Loc) :
    ∀ old new, (∀ x ∈ new, x ∈ old) →
      ∀ x ∈ (sift stop l old new).2, x ∈ (sift stop l old new).1 := by
  induction l with
  | nil => intro old new h x hx; exact h x hx
  | cons a t ih =>
    intro old new h x hx
    simp only [sift] at hx ⊢
    split at hx <;> split
    · next hc hc' =>
      refine ih _ _ ?_ x hx
      intro y hy
      rcases List.mem_append.mp hy with h' | h'
      · exact List.mem_append_left _ (h y h')
      · exact List.mem_append_right _ h'
    · next hc hc' => exact absurd hc hc'
    · next hc hc' => exact absurd hc' hc
    · exact ih _ _ h x hx

theorem sift_new_prefix (stop : List Loc) (l : List Loc) :
    ∀ old new, ∃ t, (sift stop l old new).2 = new ++ t := by
  induction l with
  | nil => intro old new; exact ⟨[], by simp [sift]⟩
  | cons a t ih =>
    intro old new
    simp only [sift]
    split
    · obtain ⟨u, hu⟩ := ih (old ++ [a]) (new ++ [a])
      exact ⟨[a] ++ u, by rw [hu, List.append_assoc]⟩
    · exact ih _ _

theorem processAdds_inr_spec (stop ants : List Loc) (maxAnts : Nat) (layers : List (List Loc)) :
    ∀ (adds : List Loc) (n : Nat) (old new : List Loc) (n' : Nat) (old' new' : List Loc),
      processAdds stop ants maxAnts layers adds n old new = Sum.inr (n', old', new') →
      old' = (sift stop adds old new).1 ∧ new' = (sift stop adds old new).2 ∧
      n' = n + adds.countP (fun x => decide (x ∈ ants)) ∧ (n < maxAnts → n' < maxAnts) := by
  intro adds
  induction adds with
  | nil =>
    intro n old new n' old' new' h
    simp only [processAdds] at h
    obtain ⟨rfl, rfl, rfl⟩ : n = n' ∧ old = old' ∧ new = new' := by
      cases h; exact ⟨rfl, rfl, rfl⟩
    simp [sift]
  | cons a t ih =>
    intro n old new n' old' new' h
    simp only [processAdds] at h
    by_cases hant : a ∈ ants
    · rw [if_pos hant] at h
      by_cases hmax : n + 1 ≥ maxAnts
      · rw [if_pos hmax] at h
        cases h
      · rw [if_neg hmax] at h
        have hcount : (a :: t).countP (fun x => decide (x ∈ ants))
            = t.countP (fun x => decide (x ∈ ants)) + 1 := by
          simp [List.countP_cons, hant]
        by_cases hcond : a ∉ old ∧ a ∉ stop
        · rw [if_pos hcond] at h
          obtain ⟨h1, h2, h3, h4⟩ := ih (n + 1) (old ++ [a]) (new ++ [a]) n' old' new' h
          refine ⟨?_, ?_, ?_, ?_⟩
          · rw [h1]; simp only [sift, if_pos hcond]
          · rw [h2]; simp only [sift, if_pos hcond]
          · rw [h3, hcount]; omega
          · intro hn; exact h4 (by omega)
        · rw [if_neg hcond] at h
          obtain ⟨h1, h2, h3, h4⟩ := ih (n + 1) old new n' old' new' h
          refine ⟨?_, ?_, ?_, ?_⟩
          · rw [h1]; simp only [sift, if_neg hcond]
          · rw [h2]; simp only [sift, if_neg hcond]
          · rw [h3, hcount]; omega
          · intro hn; exact h4 (by omega)
    · rw [if_neg hant] at h
      have hcount : (a :: t).countP (fun x => decide (x ∈ ants))
          = t.countP (fun x => decide (x ∈ ants)) := by
        simp [List.countP_cons, hant]
      by_cases hcond : a ∉ old ∧ a ∉ stop
      · rw [if_pos hcond] at h
        obtain ⟨h1, h2, h3, h4⟩ := ih n (old ++ [a]) (new ++ [a]) n' old' new' h
        refine ⟨?_, ?_, ?_, h4⟩
        · rw [h1]; simp only [sift, if_pos hcond]
        · rw [h2]; simp only [sift, if_pos hcond]
        · rw [h3, hcount]
      · rw [if_neg hcond] at h
        obtain ⟨h1, h2, h3, h4⟩ := ih n old new n' old' new' h
        refine ⟨?_, ?_, ?_, h4⟩
        · rw [h1]; simp only [sift, if_neg hcond]
        · rw [h2]; simp only [sift, if_neg hcond]
        · rw [h3, hcount]

theorem processAdds_inl_spec (stop ants : List Loc) (maxAnts : Nat) (layers : List (List Loc)) :
    ∀ (adds : List Loc) (n : Nat) (old new : List Loc) (res : List (List Loc)),
      processAdds stop ants maxAnts layers adds n old new = Sum.inl res →
      ∃ l1 l2, adds = l1 ++ l2 ∧ res = layers ++ [(sift stop l1 old new).2] := by
  intro adds
  induction adds with
  | nil =>
    intro n old new res h
    simp only [processAdds] at h
    cases h
  | cons a t ih =>
    intro n old new res h
    simp only [processAdds] at h
    by_cases hant : a ∈ ants
    · rw [if_pos hant] at h
      by_cases hmax : n + 1 ≥ maxAnts
      · rw [if_pos hmax] at h
        refine ⟨[], a :: t, rfl, ?_⟩
        cases h
        simp [sift]
      · rw [if_neg hmax] at h
        by_cases hcond : a ∉ old ∧ a ∉ stop
        · rw [if_pos hcond] at h
          obtain ⟨l1, l2, heq, hres⟩ := ih (n + 1) (old ++ [a]) (new ++ [a]) res h
          refine ⟨a :: l1, l2, by rw [List.cons_append, heq], ?_⟩
          rw [hres]
          simp only [sift, if_pos hcond]
        · rw [if_neg hcond] at h
          obtain ⟨l1, l2, heq, hres⟩ := ih (n + 1) old new res h
          refine ⟨a :: l1, l2, by rw [List.cons_append, heq], ?_⟩
          rw [hres]
          simp only [sift, if_neg hcond]
    · rw [if_neg hant] at h
      by_cases hcond : a ∉ old ∧ a ∉ stop
      · rw [if_pos hcond] at h
        obtain ⟨l1, l2, heq, hres⟩ := ih n (old ++ [a]) (new ++ [a]) res h
        refine ⟨a :: l1, l2, by rw [List.cons_append, heq], ?_⟩
        rw [hres]
        simp only [sift, if_pos hcond]
      · rw [if_neg hcond] at h
        obtain ⟨l1, l2, heq, hres⟩ := ih n old new res h
        refine ⟨a :: l1, l2, by rw [List.cons_append, heq], ?_⟩
        rw [hres]
        simp only [sift, if_neg hcond]

theorem ideal_old_step (nrows ncols : Int) (stop : List Loc) (start : Loc) (n : Nat) :
    ∀ x ∈ (ideal nrows ncols stop start n).1, x ∈ (ideal nrows ncols stop start (n + 1)).1 := by
  intro x hx
  exact sift_old_sub stop _ _ [] x hx

theorem ideal_old_mono (nrows ncols : Int) (stop : List Loc) (start : Loc) {m n : Nat}
    (h : m ≤ n) : ∀ x ∈ (ideal nrows ncols stop start m).1,
      x ∈ (ideal nrows ncols stop start n).1 := by
  induction n with
  | zero =>
    intro x hx
    obtain rfl : m = 0 := Nat.le_zero.mp h
    exact hx
  | succ n ihn =>
    intro x hx
    rcases Nat.lt_or_ge m (n + 1) with h' | h'
    · exact ideal_old_step nrows ncols stop start n x (ihn (by omega) x hx)
    · obtain rfl : m = n + 1 := by omega
      exact hx

theorem ideal_layer_sub_old (nrows ncols : Int) (stop : List Loc) (start : Loc) (n : Nat) :
    ∀ x ∈ (ideal nrows ncols stop start n).2, x ∈ (ideal nrows ncols stop start n).1 := by
  cases n with
  | zero => intro x hx; exact hx
  | succ n =>
    intro x hx
    exact sift_new_sub_old stop _ _ [] (by intro y hy; cases hy) x hx

theorem ideal_layer_mem_adds (nrows ncols : Int) (stop : List Loc) (start : Loc) (n : Nat) :
    ∀ x ∈ (ideal nrows ncols stop start (n + 1)).2,
      x ∈ addsOf nrows ncols (ideal nrows ncols stop start n).2 := by
  intro x hx
  rcases sift_new_spec stop _ _ [] x hx with h | ⟨h1, _, _⟩
  · cases h
  · exact h1

theorem countP_lt_succ_le (ds : List Nat) (hnd : ds.Nodup) (i : Nat) :
    ds.countP (fun x => decide (x < i + 1))
      ≤ ds.countP (fun x => decide (x < i)) + (if i ∈ ds then 1 else 0) := by
  induction ds with
  | nil => simp
  | cons a t ih =>
    rcases List.nodup_cons.mp hnd with ⟨ha, ht⟩
    have iht := ih ht
    simp only [List.countP_cons, List.mem_cons, decide_eq_true_eq]
    rcases Nat.lt_trichotomy a i with hlt | heq | hgt
    · have e1 : (if a < i + 1 then 1 else 0) = 1 := if_pos (by omega)
      have e2 : (if a < i then 1 else 0) = 1 := if_pos hlt
      have e3 : (if i = a ∨ i ∈ t then 1 else 0) ≥ (if i ∈ t then 1 else 0) := by
        by_cases hit : i ∈ t <;> simp [hit]
      rw [e1, e2]
      omega
    · have e1 : (if a < i + 1 then 1 else 0) = 1 := if_pos (by omega)
      have e2 : (if a < i then 1 else 0) = 0 := if_neg (by omega)
      have e3 : (if i = a ∨ i ∈ t then 1 else 0) = 1 := if_pos (Or.inl heq.symm)
      have e4 : (if i ∈ t then 1 else 0) = 0 := by
        refine if_neg ?_
        intro hm
        apply ha
        rw [heq]
        exact hm
      rw [e1, e2, e3]
      rw [e4] at iht
      omega
    · have e1 : (if a < i + 1 then 1 else 0) = 0 := if_neg (by omega)
      have e2 : (if a < i then 1 else 0) = 0 := if_neg (by omega)
      have e3 : (if i = a ∨ i ∈ t then 1 else 0) ≥ (if i ∈ t then 1 else 0) := by
        by_cases hit : i ∈ t <;> simp [hit]
      rw [e1, e2]
      omega

theorem mem_le_getLast (ds : List Nat) (h : ds.Pairwise (· < ·)) (hne : ds ≠ []) :
    ∀ x ∈ ds, x ≤ ds.getLast hne := by
  intro x hx
  have hdec := List.dropLast_append_getLast hne
  rw [← hdec] at hx h
  rcases List.mem_append.mp hx with h' | h'
  · have := (List.pairwise_append.mp h).2.2 x h' (ds.getLast hne) (List.mem_singleton.mpr rfl)
    omega
  · rcases List.mem_singleton.mp h' with rfl
    exact le_refl _

theorem countP_lt_last (ds : List Nat) (h : ds.Pairwise (· < ·)) (hne : ds ≠ []) :
    ds.countP (fun x => decide (x < ds.getLast hne)) = ds.length - 1 := by
  set L := ds.getLast hne with hL
  obtain ⟨init, hinit⟩ : ∃ init, ds = init ++ [L] :=
    ⟨ds.dropLast, (List.dropLast_append_getLast hne).symm⟩
  rw [hinit] at h ⊢
  rw [List.countP_append]
  have h1 : init.countP (fun x => decide (x < L)) = init.length := by
    refine List.countP_eq_length.mpr ?_
    intro a ha
    have := (List.pairwise_append.mp h).2.2 a ha L (List.mem_singleton.mpr rfl)
    simpa using this
  have h2 : ([L]).countP (fun x => decide (x < L)) = 0 := by simp
  rw [h1, h2]
  simp

theorem countP_lt_succ_last (ds : List Nat) (h : ds.Pairwise (· < ·)) (hne : ds ≠ []) :
    ds.countP (fun x => decide (x < ds.getLast hne + 1)) = ds.length := by
  refine List.countP_eq_length.mpr ?_
  intro a ha
  have := mem_le_getLast ds h hne a ha
  simpa using by omega

theorem countP_pos_of_mem {α : Type} (p : α → Bool) {l : List α} {x : α}
    (hx : x ∈ l) (hp : p x = true) : 1 ≤ l.countP p := by
  induction l with
  | nil => cases hx
  | cons a t ih =>
    rcases List.mem_cons.mp hx with rfl | h
    · simp [List.countP_cons, hp]
    · have := ih h
      simp only [List.countP_cons]
      omega

theorem bfs_capacity_aux (nrows ncols : Int) (stop ants : List Loc) (start : Loc) (k : Nat)
    (ds : List Nat) (hpw : ds.Pairwise (· < ·)) (hne : ds ≠ [])
    (hk : ds.length = k)
    (hag : ∀ i ∈ ds, ∃ a, a ∈ ants ∧ a ∈ (ideal nrows ncols stop start i).2) :
    ∀ (fuel j n : Nat), j < ds.getLast hne →
      ds.countP (fun x => decide (x < j + 1)) ≤ n → n < k →
      (bfs_loop nrows ncols stop ants k fuel (ideal nrows ncols stop start j).2
          ((List.range (j + 1)).map (fun m => (ideal nrows ncols stop start m).2)) n
          (ideal nrows ncols stop start j).1).length ≤ ds.getLast hne + 1 ∧
      (∀ L ∈ bfs_loop nrows ncols stop ants k fuel (ideal nrows ncols stop start j).2
          ((List.range (j + 1)).map (fun m => (ideal nrows ncols stop start m).2)) n
          (ideal nrows ncols stop start j).1,
        ∀ t ∈ L, t ∈ (ideal nrows ncols stop start (ds.getLast hne)).1) := by
  have hnd : ds.Nodup := hpw.imp (fun h => Nat.ne_of_lt h)
  intro fuel
  induction fuel with
  | zero =>
    intro j n hj hlo hhi
    constructor
    · show ((List.range (j + 1)).map _).length ≤ _
      rw [List.length_map, List.length_range]
      omega
    · intro L hL t ht
      obtain ⟨m, hm, rfl⟩ := List.mem_map.mp hL
      rw [List.mem_range] at hm
      exact ideal_old_mono nrows ncols stop start (by omega : m ≤ ds.getLast hne) t
        (ideal_layer_sub_old nrows ncols stop start m t ht)
  | succ fuel ih =>
    intro j n hj hlo hhi
    rw [bfs_loop]
    cases hpa : processAdds stop ants k
        ((List.range (j + 1)).map (fun m => (ideal nrows ncols stop start m).2))
        (addsOf nrows ncols (ideal nrows ncols stop start j).2) n
        (ideal nrows ncols stop start j).1 [] with
    | inl res =>
      dsimp only
      obtain ⟨l1, l2, hadds, hres⟩ := processAdds_inl_spec _ _ _ _ _ _ _ _ _ hpa
      have hpartial : ∀ t ∈ (sift stop l1 (ideal nrows ncols stop start j).1 []).2,
          t ∈ (ideal nrows ncols stop start (j + 1)).2 := by
        intro t ht
        have hfull : (ideal nrows ncols stop start (j + 1)).2
            = (sift stop (l1 ++ l2) (ideal nrows ncols stop start j).1 []).2 := by
          show (sift stop (addsOf nrows ncols (ideal nrows ncols stop start j).2)
            (ideal nrows ncols stop start j).1 []).2 = _
          rw [hadds]
        rw [hfull, sift_append]
        obtain ⟨u, hu⟩ := sift_new_prefix stop l2
          (sift stop l1 (ideal nrows ncols stop start j).1 []).1
          (sift stop l1 (ideal nrows ncols stop start j).1 []).2
        rw [hu]
        exact List.mem_append_left _ ht
      rw [hres]
      constructor
      · rw [List.length_append, List.length_map, List.length_range]
        simp only [List.length_singleton]
        omega
      · intro L hL t ht
        rcases List.mem_append.mp hL with h | h
        · obtain ⟨m, hm, rfl⟩ := List.mem_map.mp h
          rw [List.mem_range] at hm
          exact ideal_old_mono nrows ncols stop start (by omega : m ≤ ds.getLast hne) t
            (ideal_layer_sub_old nrows ncols stop start m t ht)
        · rcases List.mem_singleton.mp h with rfl
          have h1 := hpartial t ht
          exact ideal_old_mono nrows ncols stop start (by omega : j + 1 ≤ ds.getLast hne) t
            (ideal_layer_sub_old nrows ncols stop start (j + 1) t h1)
    | inr trip =>
      obtain ⟨n', old', new'⟩ := trip
      dsimp only
      obtain ⟨ho, hn, hcnt, hlt⟩ := processAdds_inr_spec _ _ _ _ _ _ _ _ _ _ _ hpa
      have hnew : new' = (ideal nrows ncols stop start (j + 1)).2 := hn
      have hold : old' = (ideal nrows ncols stop start (j + 1)).1 := ho
      by_cases hemp : new' = []
      · rw [if_pos hemp]
        constructor
        · rw [List.length_map, List.length_range]
          omega
        · intro L hL t ht
          obtain ⟨m, hm, rfl⟩ := List.mem_map.mp hL
          rw [List.mem_range] at hm
          exact ideal_old_mono nrows ncols stop start (by omega : m ≤ ds.getLast hne) t
            (ideal_layer_sub_old nrows ncols stop start m t ht)
      · rw [if_neg hemp]
        have hstep_cnt : ds.countP (fun x => decide (x < j + 2)) ≤ n' := by
          have hle : ds.countP (fun x => decide (x < j + 2))
              ≤ ds.countP (fun x => decide (x < j + 1)) + (if (j + 1) ∈ ds then 1 else 0) :=
            countP_lt_succ_le ds hnd (j + 1)
          by_cases hjm : (j + 1) ∈ ds
          · obtain ⟨a, haa, hal⟩ := hag (j + 1) hjm
            have hmem_adds : a ∈ addsOf nrows ncols (ideal nrows ncols stop start j).2 :=
              ideal_layer_mem_adds nrows ncols stop start j a hal
            have hone : 1 ≤ (addsOf nrows ncols
                (ideal nrows ncols stop start j).2).countP (fun x => decide (x ∈ ants)) :=
              countP_pos_of_mem _ hmem_adds (by simp [haa])
            rw [if_pos hjm] at hle
            rw [hcnt]
            omega
          · rw [if_neg hjm] at hle
            rw [hcnt]
            omega
        rcases Nat.lt_or_ge (j + 1) (ds.getLast hne) with hjD | hjD
        · have hrec := ih (j + 1) n' hjD hstep_cnt (hlt hhi)
          have hlay : (List.range (j + 1)).map (fun m => (ideal nrows ncols stop start m).2)
              ++ [(ideal nrows ncols stop start (j + 1)).2]
              = (List.range (j + 2)).map (fun m => (ideal nrows ncols stop start m).2) := by
            conv_rhs => rw [show j + 2 = (j + 1) + 1 from rfl, List.range_succ]
            rw [List.map_append]
            rfl
          rw [hnew, hold, hlay]
          exact hrec
        · exfalso
          have hD : j + 1 = ds.getLast hne := by omega
          have hfull : ds.countP (fun x => decide (x < j + 2)) = k := by
            have := countP_lt_succ_last ds hpw hne
            rw [← hD] at this
            rw [← hk]
            exact this
          have h1 : k ≤ n' := by rw [← hfull]; exact hstep_cnt
          have h2 : n' < k := hlt hhi
          omega

/-- C3: for a source with capacity `k` and `k` friendly agents reachable at
pairwise strictly increasing breadth-first distances, all at distance at least
1 from the source, `build_influence` stops at or before the distance layer of
the `k`-th nearest such agent: it produces at most `d_k + 1` layers (`d_k`
being the last and largest listed distance, counting the partially built
current layer), and every tile of every produced layer lies within
breadth-first distance `d_k` of the source.  The original claim also covered
agents at distance 0 (standing on the source tile), where the bound fails
because only examined neighbors are counted (see the counterexample). -/
theorem C3_capacity_bound (nrows ncols : Int) (stop ants : List Loc) (amap : Loc → Int)
    (start : Loc) (fuel : Nat) (ds : List Nat)
    (hpw : ds.Pairwise (· < ·)) (hne : ds ≠ [])
    (hpos : ∀ i ∈ ds, 1 ≤ i)
    (hk : ds.length = capacityOf amap ants start)
    (hag : ∀ i ∈ ds, ∃ a, a ∈ ants ∧ a ∈ (ideal nrows ncols stop start i).2) :
    (build_influence nrows ncols stop amap ants fuel start).length ≤ ds.getLast hne + 1 ∧
    ∀ L ∈ build_influence nrows ncols stop amap ants fuel start,
      ∀ t ∈ L, t ∈ (ideal nrows ncols stop start (ds.getLast hne)).1 := by
  have h0 : ds.countP (fun x => decide (x < 0 + 1)) = 0 := by
    rw [List.countP_eq_zero]
    intro a ha
    have := hpos a ha
    simp only [decide_eq_true_eq]
    omega
  have hj : 0 < ds.getLast hne := hpos _ (List.getLast_mem hne)
  have hk0 : 0 < capacityOf amap ants start := by
    rw [← hk]
    exact List.length_pos.mpr hne
  have h := bfs_capacity_aux nrows ncols stop ants start (capacityOf amap ants start) ds hpw hne
    hk hag fuel 0 0 hj (by rw [h0]) hk0
  exact h

/-- C3 witness: a 5×5 torus with no obstacles, a food source at (2,2)
(capacity 1) and one friendly agent at (2,4), breadth-first distance 2: the
expansion produces at most 3 layers. -/
theorem C3_capacity_bound_witness :
    (build_influence 5 5 [] (fun _ => FOOD) [((2 : Int), (4 : Int))] 9
      ((2 : Int), (2 : Int))).length ≤ 2 + 1 :=
  (C3_capacity_bound 5 5 [] [((2 : Int), (4 : Int))] (fun _ => FOOD) ((2 : Int), (2 : Int)) 9 [2]
    (by decide) (by decide) (by decide) (by decide) (by decide)).1

/-- C3 counterexample to the original claim: the only friendly agent stands on
the source tile itself (breadth-first distance 0) and the food source has
capacity 1, so the claimed bound is 0 + 1 = 1 layer; but the agent counter only
inspects examined neighbors, never the start tile, so the expansion continues
and produces 3 layers, adding tiles at breadth-first distance 2. -/
theorem C3_counterexample :
    ((2 : Int), (2 : Int)) ∈ (ideal 5 5 [] ((2 : Int), (2 : Int)) 0).2 ∧
    capacityOf (fun _ => FOOD) [((2 : Int), (2 : Int))] ((2 : Int), (2 : Int)) = 1 ∧
    (build_influence 5 5 [] (fun _ => FOOD) [((2 : Int), (2 : Int))] 9
      ((2 : Int), (2 : Int))).length = 3 := by
  decide

theorem mem_drop_one_append {α : Type} {layers : List α} {x L : α}
    (hL : L ∈ (layers ++ [x]).drop 1) : L ∈ layers.drop 1 ∨ L = x := by
  cases layers with
  | nil => exact absurd hL (List.not_mem_nil L)
  | cons a t =>
    have h : L ∈ t ++ [x] := hL
    rcases List.mem_append.mp h with h' | h'
    · exact Or.inl h'
    · exact Or.inr (List.mem_singleton.mp h')

theorem bfs_loop_stop_free (nrows ncols : Int) (stop ants : List Loc) (k : Nat) :
    ∀ (fuel : Nat) (queue : List Loc) (layers : List (List Loc)) (n : Nat) (old : List Loc),
      (∀ L ∈ layers.drop 1, ∀ t ∈ L, t ∉ stop) →
      ∀ L ∈ (bfs_loop nrows ncols stop ants k fuel queue layers n old).drop 1,
        ∀ t ∈ L, t ∉ stop := by
  intro fuel
  induction fuel with
  | zero => intro queue layers n old hinv; exact hinv
  | succ fuel ih =>
    intro queue layers n old hinv
    rw [bfs_loop]
    cases hpa : processAdds stop ants k layers (addsOf nrows ncols queue) n old [] with
    | inl res =>
      dsimp only
      obtain ⟨l1, l2, hadds, hres⟩ := processAdds_inl_spec _ _ _ _ _ _ _ _ _ hpa
      rw [hres]
      intro L hL t ht
      rcases mem_drop_one_append hL with h | rfl
      · exact hinv L h t ht
      · rcases sift_new_spec stop l1 old [] t ht with h | ⟨_, _, h3⟩
        · exact absurd h (List.not_mem_nil t)
        · exact h3
    | inr trip =>
      obtain ⟨n', old', new'⟩ := trip
      dsimp only
      obtain ⟨ho, hn, hcnt, hlt⟩ := processAdds_inr_spec _ _ _ _ _ _ _ _ _ _ _ hpa
      by_cases hemp : new' = []
      · rw [if_pos hemp]; exact hinv
      · rw [if_neg hemp]
        refine ih new' (layers ++ [new']) n' old' ?_ 
        intro L hL t ht
        rcases mem_drop_one_append hL with h | rfl
        · exact hinv L h t ht
        · rw [hn] at ht
          rcases sift_new_spec stop _ _ [] t ht with h | ⟨_, _, h3⟩
          · exact absurd h (List.not_mem_nil t)
          · exact h3

theorem processAdds_all_stop (stop ants : List Loc) (k : Nat) (layers : List (List Loc)) :
    ∀ (adds : List Loc) (n : Nat) (old new : List Loc),
      (∀ a ∈ adds, a ∈ stop ∧ a ∉ ants) →
      processAdds stop ants k layers adds n old new = Sum.inr (n, old, new) := by
  intro adds
  induction adds with
  | nil => intro n old new h; rfl
  | cons a t ih =>
    intro n old new h
    obtain ⟨hst, hant⟩ := h a (List.mem_cons_self a t)
    simp only [processAdds]
    rw [if_neg hant, if_neg (fun hc => hc.2 hst)]
    exact ih n old new (fun x hx => h x (List.mem_cons_of_mem a hx))

/-- C7: obstacle containment.  (1) No distance layer past the distance-0 layer
produced by `build_influence` contains a propagation-stopping tile (each
appended layer is filtered through the `add not in stop` check).  (2) A source
all four of whose wrapped neighbors are propagation-stopping (with no friendly
agent on a stopping tile, as in the game) expands to exactly the single layer
`[[start]]`.  (3) Scoring a source whose only layer is `[start]` changes no
tile other than the origin. -/
theorem C7_obstacle_containment (nrows ncols : Int) (stop : List Loc) (amap : Loc → Int)
    (ants : List Loc) (fuel : Nat) (start : Loc) (hstart : start ∉ stop) :
    (∀ L ∈ (build_influence nrows ncols stop amap ants fuel start).drop 1,
      ∀ t ∈ L, t ∉ stop) ∧
    ((∀ d ∈ bfs_directions, wrap_loc nrows ncols (start.1 + d.1, start.2 + d.2) ∈ stop) →
      (∀ a ∈ ants, a ∉ stop) → 1 ≤ fuel →
      build_influence nrows ncols stop amap ants fuel start = [[start]]) ∧
    (∀ (imap : Loc → ℚ) (s : ℚ) (t : Loc), t ≠ start →
      add_influence imap [([[start]], s)] t = imap t) := by
  refine ⟨?_, ?_, ?_⟩
  · exact bfs_loop_stop_free nrows ncols stop ants (capacityOf amap ants start) fuel
      [start] [[start]] 0 [start] (fun L hL => absurd hL (List.not_mem_nil L))
  · intro hnbrs hants hfuel
    obtain ⟨f, rfl⟩ : ∃ f, fuel = f + 1 := ⟨fuel - 1, by omega⟩
    have hall : ∀ a ∈ addsOf nrows ncols [start], a ∈ stop ∧ a ∉ ants := by
      intro a ha
      simp only [addsOf, List.mem_flatMap, List.mem_map, List.mem_singleton] at ha
      obtain ⟨loc, hloc, d, hd, heq⟩ := ha
      subst hloc
      subst heq
      exact ⟨hnbrs d hd, fun hmem => hants _ hmem (hnbrs d hd)⟩
    show bfs_loop nrows ncols stop ants (capacityOf amap ants start) (f + 1)
      [start] [[start]] 0 [start] = [[start]]
    rw [bfs_loop, processAdds_all_stop stop ants _ _ _ 0 [start] [] hall]
    dsimp only
    rw [if_pos rfl]
  · intro imap s t hts
    show addAt imap start (s / (((0 : Nat) : ℚ) + 1)) t = imap t
    rw [addAt_apply, if_neg hts]

/-- C7 witness: on a 3×3 torus with the four wrapped neighbors of (1,1) all
propagation-stopping and no friendly agents, the expansion from (1,1) is
exactly `[[(1,1)]]`. -/
theorem C7_obstacle_containment_witness :
    build_influence 3 3
      [((1 : Int), (2 : Int)), ((1 : Int), (0 : Int)), ((2 : Int), (1 : Int)), ((0 : Int), (1 : Int))]
      (fun _ => FOOD) [] 4 ((1 : Int), (1 : Int)) = [[((1 : Int), (1 : Int))]] :=
  (C7_obstacle_containment 3 3
    [((1 : Int), (2 : Int)), ((1 : Int), (0 : Int)), ((2 : Int), (1 : Int)), ((0 : Int), (1 : Int))]
    (fun _ => FOOD) [] 4 ((1 : Int), (1 : Int)) (by decide)).2.1
    (by decide) (by decide) (by decide)
